import Mathlib

/-!
Verification of the PMS-TOOL simulation engine.

A shallow embedding of the grid-based traffic/parking simulation core
(`src/utils/simulation.ts`, `src/types.ts`, and the simulation loop of
`src/App.tsx`), together with proofs about the route finder
(`findPath`), the multi-source distance field (`generateMallDistanceMap`),
the parking-spot selector (`findBestSpot`) and the per-tick vehicle state
machine.

Modelling conventions:
* JavaScript numbers that hold grid coordinates are modelled as `Int`
  (they are produced by integer arithmetic only), fractional quantities
  (results of `Math.random()` and score arithmetic) as exact integer
  fractions (`JsNum`).
* A JavaScript runtime `TypeError` (indexing `undefined`, e.g.
  `grid[0].length` on an empty grid, or reading a cell of a ragged row)
  is modelled by an `Option.none` result of the whole computation.
* `while` loops are modelled by structural recursion on an explicit fuel
  argument chosen large enough; sufficiency of the fuel is proved.
* `Math.random()` is modelled by an explicit oracle: a list of rationals
  consumed left to right (the pure functions of the engine consume it in
  exactly the order the JavaScript source calls `Math.random()`).
-/

namespace PMS

/-! ## Data model (`src/types.ts`) -/

/-- The `CellType` enum from `src/types.ts`.  `EMPTY`/`WALL` are the same
numeric value (0) in the source and are one constructor here; likewise the
`CAR_ENTRY`/`ENTRY`, `CAR_EXIT`/`EXIT` and `MALL`/`MALL_ENTRY` aliases. -/
inductive CellType where
  | wall | path | parking | entry | exit | mall | display
  | zoneA | zoneB | zoneC | zoneD
  deriving DecidableEq, Repr

/-- The `SpotType` enum from `src/types.ts`. -/
inductive SpotType where
  | standard | compact | ev | disabled | reserved
  deriving DecidableEq, Repr

/-- The `WallType` enum from `src/types.ts` (`NONE = 0`, `SOLID = 1`). -/
inductive WallType where
  | nowall | solid
  deriving DecidableEq, Repr

/-- The `GridEdges` record from `src/types.ts`; every side is optional. -/
structure GridEdges where
  north : Option WallType
  south : Option WallType
  east : Option WallType
  west : Option WallType
  deriving DecidableEq, Repr

/-- The `Point` record from `src/types.ts`. -/
structure Point where
  x : Int
  y : Int
  deriving DecidableEq, Repr

/-- The `GridCell` record from `src/types.ts`.  The purely editorial fields
(`label`, `customZone`, `tags`, `locked`) play no role in the simulation
engine and are omitted.  The optional boolean `hasFlow` is modelled as a
`Bool` because the engine only tests its truthiness (absent = `false`). -/
structure GridCell where
  type : CellType
  rotation : Int
  spotType : Option SpotType
  subMask : Option (List (List Nat))
  edges : Option GridEdges
  hasFlow : Bool
  deriving DecidableEq, Repr

/-- The type `Grid = GridCell[][]` from `src/types.ts`. -/
abbrev Grid := List (List GridCell)

/-- Reading `grid[p.y][p.x]`; `Option.none` when the access would hit
`undefined` in JavaScript (negative index or out of range). -/
def cellAt (grid : Grid) (p : Point) : Option GridCell :=
  if 0 ≤ p.y ∧ 0 ≤ p.x then
    match grid[p.y.toNat]? with
    | Option.none => Option.none
    | some row => row[p.x.toNat]?
  else Option.none

/-! ## Route finder (`findPath`, `src/utils/simulation.ts` lines 53-172) -/

/-- One entry of the `directions` array of `findPath`: an offset, the
flow angle in degrees, and the edge selectors used for the hybrid edge
wall checks. -/
structure Dir where
  dx : Int
  dy : Int
  deg : Int
  edge : GridEdges → Option WallType
  oppEdge : GridEdges → Option WallType

/-- The `directions` array of `findPath`: up, right, down, left. -/
def directions : List Dir :=
  [⟨0, -1, 0, GridEdges.north, GridEdges.south⟩,
   ⟨1, 0, 90, GridEdges.east, GridEdges.west⟩,
   ⟨0, 1, 180, GridEdges.south, GridEdges.north⟩,
   ⟨-1, 0, 270, GridEdges.west, GridEdges.east⟩]

/-- Edge-wall test `cell.edges && cell.edges[side] === WallType.SOLID`. -/
def edgeSolid (edges : Option GridEdges) (side : GridEdges → Option WallType) : Bool :=
  match edges with
  | Option.none => false
  | some e => side e = some WallType.solid

/-- Check 4 of `findPath`: a sub-occupancy mask with more than half of its
entries solid blocks the destination cell.  `solidCount > len * 0.5` on
JavaScript numbers is exactly `2 * solidCount > len` for integers. -/
def subMaskBlocked (cell : GridCell) : Bool :=
  match cell.subMask with
  | Option.none => false
  | some mask =>
    let flatMask := mask.flatten
    let solidCount := (flatMask.filter fun v => v = 1).length
    2 * solidCount > flatMask.length

/-- Check 5 of `findPath` (cell-type walkability of the destination). -/
def walkableB (nextCell : GridCell) (strictMode : Bool) (target : Point)
    (nx ny : Int) : Bool :=
  let isWalkable : Bool :=
    nextCell.type = CellType.entry ∨ nextCell.type = CellType.exit ∨
      (nextCell.type = CellType.parking ∧ nx = target.x ∧ ny = target.y)
  if nextCell.type = CellType.path then
    if strictMode then nextCell.hasFlow else true
  else isWalkable

/-- Checks 2-5 of the direction loop of `findPath`, entered once the
flow-as-law check on the current cell has passed: bounds, one-way
collision on the destination, edge walls (both sides), sub-mask
occupancy, walkability. -/
def moveOkBounded (grid : Grid) (width height : Nat) (strictMode : Bool)
    (target : Point) (pos : Point) (currentCell : GridCell) (d : Dir) :
    Option Bool :=
  let nx := pos.x + d.dx
  let ny := pos.y + d.dy
  if 0 ≤ nx ∧ nx < (width : Int) ∧ 0 ≤ ny ∧ ny < (height : Int) then
    match cellAt grid ⟨nx, ny⟩ with
    | Option.none => Option.none
    | some nextCell =>
      if strictMode = true ∧ nextCell.type = CellType.path ∧
          nextCell.hasFlow = true ∧ (nextCell.rotation - d.deg).natAbs = 180 then
        some false
      else if edgeSolid currentCell.edges d.edge then some false
      else if edgeSolid nextCell.edges d.oppEdge then some false
      else if subMaskBlocked nextCell then some false
      else some (walkableB nextCell strictMode target nx ny)
  else some false

/-- The body of the direction loop of `findPath` without the visited-set
test: `some true` means the candidate move from `pos` (holding
`currentCell`) in direction `d` passes every traversal check, `some
false` that one check rejects it, `Option.none` that reading the
destination cell would raise a `TypeError` (only possible on a ragged
grid).  The checks appear in source order: flow-as-law on the current
cell first, then `moveOkBounded`. -/
def moveOk (grid : Grid) (width height : Nat) (strictMode : Bool)
    (target : Point) (pos : Point) (currentCell : GridCell) (d : Dir) :
    Option Bool :=
  let allowedDegrees : Option Int :=
    if currentCell.type = CellType.path ∧ currentCell.hasFlow = true then
      some currentCell.rotation
    else Option.none
  match allowedDegrees with
  | some deg =>
    if deg ≠ d.deg then some false
    else moveOkBounded grid width height strictMode target pos currentCell d
  | Option.none => moveOkBounded grid width height strictMode target pos currentCell d

/-- The destination point of direction `d` taken from `pos`. -/
def pmove (pos : Point) (d : Dir) : Point :=
  ⟨pos.x + d.dx, pos.y + d.dy⟩

/-- The direction loop of one BFS iteration: try every direction in
order, enqueueing (and marking visited) each allowed unvisited
destination.  Returns the extended queue and visited list, or
`Option.none` on a modelled `TypeError`. -/
def expand (grid : Grid) (width height : Nat) (strictMode : Bool)
    (target : Point) (pos : Point) (path : List Point)
    (currentCell : GridCell) :
    List Dir → List (Point × List Point) → List Point →
    Option (List (Point × List Point) × List Point)
  | [], queue, visited => some (queue, visited)
  | d :: ds, queue, visited =>
    match moveOk grid width height strictMode target pos currentCell d with
    | Option.none => Option.none
    | some false =>
      expand grid width height strictMode target pos path currentCell ds queue visited
    | some true =>
      let np := pmove pos d
      if np ∈ visited then
        expand grid width height strictMode target pos path currentCell ds queue visited
      else
        expand grid width height strictMode target pos path currentCell ds
          (queue ++ [(np, path ++ [np])]) (visited ++ [np])

/-- The `while (queue.length > 0)` loop of `findPath`, with fuel.  The
queue holds `(pos, path)` pairs exactly as in the source; the visited
set of `"x,y"` strings is modelled as a list of points (the string
encoding is injective on integer coordinates). -/
def findPathAux (grid : Grid) (width height : Nat) (target : Point)
    (strictMode : Bool) :
    Nat → List (Point × List Point) → List Point → Option (List Point)
  | _, [], _ => some []
  | 0, _ :: _, _ => Option.none
  | fuel + 1, (pos, path) :: rest, visited =>
    if pos = target then some path
    else
      match cellAt grid pos with
      | Option.none => Option.none
      | some currentCell =>
        match expand grid width height strictMode target pos path currentCell
            directions rest visited with
        | Option.none => Option.none
        | some (q, v) => findPathAux grid width height target strictMode fuel q v

/-- `findPath` (`src/utils/simulation.ts` line 53).  On an empty grid the
source evaluates `grid[0].length` and throws a `TypeError`, modelled by
`Option.none`.  `width * height + 1` iterations always suffice: every
iteration pops one queue entry and each point is enqueued at most once. -/
def findPath (grid : Grid) (start target : Point) (strictMode : Bool) :
    Option (List Point) :=
  match grid with
  | [] => Option.none
  | row0 :: _ =>
    let height := grid.length
    let width := row0.length
    findPathAux grid width height target strictMode (width * height + 1)
      [(start, [start])] [start]

/-! ## Distance field builder (`generateMallDistanceMap`,
`src/utils/simulation.ts` lines 12-49) -/

/-- Distance-field values: a hop count or the JavaScript `Infinity`
(modelled by `⊤ : ℕ∞`). -/
abbrev DistMap := List (List ℕ∞)

/-- The `directions` array of `generateMallDistanceMap` (down, up,
right, left — a different order than in `findPath`). -/
def dirs2 : List (Int × Int) := [(0, 1), (0, -1), (1, 0), (-1, 0)]

/-- Reading `distMap[y][x]`. -/
def mget (m : DistMap) (y x : Int) : Option ℕ∞ :=
  if 0 ≤ y ∧ 0 ≤ x then
    match m[y.toNat]? with
    | Option.none => Option.none
    | some row => row[x.toNat]?
  else Option.none

/-- Writing `distMap[y][x] = v`.  Out-of-range writes are no-ops here;
they cannot occur on the rectangular grids the simulation uses (in
JavaScript such a write would instead extend the row). -/
def mset (m : DistMap) (y x : Nat) (v : ℕ∞) : DistMap :=
  match m[y]? with
  | Option.none => m
  | some row => m.set y (row.set x v)

/-- The relaxation test `!isObstacle && distMap[ny][nx] > currentDist + 1`.
An absent entry (only possible out of range) compares false, as the
JavaScript comparison against `undefined` does. -/
def improves (m : DistMap) (ny nx : Int) (cand : ℕ∞) : Bool :=
  match mget m ny nx with
  | some v => cand < v
  | Option.none => false

/-- The direction loop of one `generateMallDistanceMap` BFS iteration:
relax each in-bounds non-Wall neighbour whose recorded distance strictly
exceeds `currentDist + 1`, and enqueue it.  `Option.none` models the
`TypeError` of reading a cell of a ragged row. -/
def relaxDirs (grid : Grid) (width height : Nat) (pos : Point)
    (currentDist : ℕ∞) :
    List (Int × Int) → DistMap → List Point → Option (DistMap × List Point)
  | [], m, q => some (m, q)
  | d :: ds, m, q =>
    let nx := pos.x + d.1
    let ny := pos.y + d.2
    if 0 ≤ nx ∧ nx < (width : Int) ∧ 0 ≤ ny ∧ ny < (height : Int) then
      match cellAt grid ⟨nx, ny⟩ with
      | Option.none => Option.none
      | some cell =>
        if cell.type ≠ CellType.wall ∧ improves m ny nx (currentDist + 1) = true then
          relaxDirs grid width height pos currentDist ds
            (mset m ny.toNat nx.toNat (currentDist + 1)) (q ++ [⟨nx, ny⟩])
        else relaxDirs grid width height pos currentDist ds m q
    else relaxDirs grid width height pos currentDist ds m q

/-- The `while (queue.length > 0)` loop of `generateMallDistanceMap`,
with fuel.  `currentDist` is read once per iteration, before the
direction loop, exactly as in the source; a (never occurring) absent
entry is treated like the JavaScript `NaN` it would produce: it relaxes
nothing, which `⊤` also guarantees. -/
def bfsLoop (grid : Grid) (width height : Nat) :
    Nat → DistMap → List Point → Option DistMap
  | _, m, [] => some m
  | 0, _, _ :: _ => Option.none
  | fuel + 1, m, p :: q =>
    let currentDist := (mget m p.y p.x).getD ⊤
    match relaxDirs grid width height p currentDist dirs2 m q with
    | Option.none => Option.none
    | some mq => bfsLoop grid width height fuel mq.1 mq.2

/-- The Destination (Mall) cells of the grid in row-major order — the
multi-source seeds of `generateMallDistanceMap`. -/
def mallSeeds (grid : Grid) : List Point :=
  grid.enum.flatMap fun yrow =>
    yrow.2.enum.filterMap fun xcell =>
      if xcell.2.type = CellType.mall then
        some ⟨(xcell.1 : Int), (yrow.1 : Int)⟩
      else Option.none

/-- `generateMallDistanceMap` (`src/utils/simulation.ts` line 12):
`height × width` field of `Infinity`, seeded with `0` at every Mall
cell, then relaxed by the FIFO loop.  `3 * height * width + 1`
iterations always suffice (proved below: every enqueue turns an
`Infinity` entry finite). -/
def generateMallDistanceMap (grid : Grid) : Option DistMap :=
  let height := grid.length
  let width := (grid.head?.map List.length).getD 0
  let init : DistMap := List.replicate height (List.replicate width ⊤)
  let seeds := mallSeeds grid
  let seeded := seeds.foldl (fun m p => mset m p.y.toNat p.x.toNat 0) init
  bfsLoop grid width height (3 * height * width + 1) seeded seeds

/-! ## JavaScript numbers

The engine's fractional quantities (results of `Math.random()`, spot
scores, electrical currents, dwell rolls before flooring) are exact
rationals in this model.  They are represented as raw integer fractions
with positive denominator instead of `ℚ` so that every arithmetic step
reduces inside the kernel (the concrete simulation runs below are
checked by `decide`; `ℚ`'s normalising operations do not kernel-reduce
in this toolchain).  No engine algorithm compares numbers for equality,
only for order, so the non-canonical representation is harmless. -/

/-- An exact rational modelling a JavaScript number. -/
structure JsNum where
  num : Int
  den : Int
  deriving DecidableEq, Repr

namespace JsNum

/-- Build a fraction, normalising the sign into the numerator. -/
def mkd (n d : Int) : JsNum := if d < 0 then ⟨-n, -d⟩ else ⟨n, d⟩

/-- Embed an integer. -/
def ofInt (n : Int) : JsNum := ⟨n, 1⟩

instance (n : Nat) : OfNat JsNum n := ⟨⟨(n : Int), 1⟩⟩

instance : Add JsNum := ⟨fun a b => ⟨a.num * b.den + b.num * a.den, a.den * b.den⟩⟩

instance : Sub JsNum := ⟨fun a b => ⟨a.num * b.den - b.num * a.den, a.den * b.den⟩⟩

instance : Mul JsNum := ⟨fun a b => ⟨a.num * b.num, a.den * b.den⟩⟩

instance : Div JsNum := ⟨fun a b => mkd (a.num * b.den) (a.den * b.num)⟩

/-- Strict order by cross multiplication (correct for the positive
denominators every value built by the model carries). -/
def blt (a b : JsNum) : Bool := a.num * b.den < b.num * a.den

/-- Non-strict order by cross multiplication. -/
def ble (a b : JsNum) : Bool := a.num * b.den ≤ b.num * a.den

instance : LT JsNum := ⟨fun a b => blt a b = true⟩

instance : LE JsNum := ⟨fun a b => ble a b = true⟩

instance (a b : JsNum) : Decidable (a < b) :=
  inferInstanceAs (Decidable (blt a b = true))

instance (a b : JsNum) : Decidable (a ≤ b) :=
  inferInstanceAs (Decidable (ble a b = true))

/-- `Math.floor` (floor division; denominators are positive). -/
def floor (a : JsNum) : Int := a.num.fdiv a.den

end JsNum

/-! ## Spot selector (`findBestSpot`, `src/utils/simulation.ts`
lines 175-228) and small helpers -/

/-- The `DriverProfile` record from `src/types.ts`. -/
structure DriverProfile where
  patience : JsNum
  walkingPreference : JsNum
  parkingDurationBias : JsNum
  deriving DecidableEq, Repr

/-- `createDriverProfile` with its three `Math.random()` results passed
explicitly (drawn in source order: patience, walking preference,
parking-duration bias). -/
def createDriverProfile (r1 r2 r3 : JsNum) : DriverProfile :=
  ⟨r1, 3/10 + r2 * (7/10), 1/2 + r3 * (3/2)⟩

/-- Oracle for `Math.random()`: consume the head of the list.  An
exhausted oracle yields `1/2`; every concrete run below supplies enough
values, and the universally quantified theorems hold for any oracle. -/
def draw : List JsNum → JsNum × List JsNum
  | [] => (1/2, [])
  | r :: rs => (r, rs)

/-- The compatibility check of `findBestSpot` (its `carType` cascade),
applied to `cellSpotType = cell.spotType || SpotType.STANDARD`. -/
def isCompatibleB (carType cellSpotType : SpotType) : Bool :=
  if carType = SpotType.ev then
    cellSpotType = SpotType.ev ∨ cellSpotType = SpotType.standard
  else if carType = SpotType.disabled then
    cellSpotType = SpotType.disabled
  else
    cellSpotType = SpotType.standard ∨ cellSpotType = SpotType.compact

/-- Stable insertion into a list sorted ascending by `le`: the new
element goes after every existing element that compares `le` to it. -/
def insertLe {α : Type} (le : α → α → Bool) (a : α) : List α → List α
  | [] => [a]
  | b :: bs => if le b a then b :: insertLe le a bs else a :: b :: bs

/-- Stable ascending sort (insertion sort).  ECMAScript requires
`Array.prototype.sort` to be stable, and a stable ascending sort of a
list is unique, so insertion sort — which reduces inside the kernel —
models `candidates.sort((a, b) => a.score - b.score)` exactly. -/
def sortStable {α : Type} (le : α → α → Bool) (l : List α) : List α :=
  l.foldl (fun acc a => insertLe le a acc) []

/-- A scored candidate spot. -/
structure Cand where
  point : Point
  score : JsNum
  deriving DecidableEq, Repr

/-- The mall-distance term of the score:
`mallDistanceMap ? mallDistanceMap[y][x] : 0`.  The claims proved about
`findBestSpot` are independent of the numeric score, so the two junk
cases JavaScript lets through silently — an `Infinity` entry and an
out-of-range read (both turn the score into `Infinity`/`NaN`) — are
modelled by the equally arbitrary score term `0`. -/
def scoreDist (mallMap : Option DistMap) (y x : Nat) : JsNum :=
  match mallMap with
  | Option.none => 0
  | some m =>
    match m[y]? with
    | Option.none => 0
    | some row =>
      match row[x]? with
      | some (some n) => JsNum.ofInt (n : Int)
      | some ⊤ => 0
      | Option.none => 0

/-- The grid cells with their coordinates in row-major order, as
`grid.forEach((row, y) => row.forEach((cell, x) => ...))` visits them. -/
def cellsWithCoords (grid : Grid) : List (Nat × Nat × GridCell) :=
  grid.enum.flatMap fun yrow =>
    yrow.2.enum.map fun xcell => (yrow.1, xcell.1, xcell.2)

/-- Body of the candidate-collection loop of `findBestSpot` for one cell:
Parking type, unoccupied and compatible spots are scored (consuming one
`Math.random()` for the noise term) and appended. -/
def candCell (occupiedSpots : List Point) (entryPoint : Point)
    (carType : SpotType) (wMall wEntry wRandom : JsNum)
    (mallMap : Option DistMap) (acc : List Cand × List JsNum)
    (yxc : Nat × Nat × GridCell) : List Cand × List JsNum :=
  let y := yxc.1
  let x := yxc.2.1
  let cell := yxc.2.2
  if cell.type = CellType.parking ∧ (⟨(x : Int), (y : Int)⟩ : Point) ∉ occupiedSpots then
    let cellSpotType := cell.spotType.getD SpotType.standard
    if isCompatibleB carType cellSpotType then
      let distToMall := scoreDist mallMap y x
      let distFromEntry := |(x : Int) - entryPoint.x| + |(y : Int) - entryPoint.y|
      let rr := draw acc.2
      let score := distToMall * wMall + JsNum.ofInt distFromEntry * wEntry +
        rr.1 * 10 * wRandom
      (acc.1 ++ [⟨⟨(x : Int), (y : Int)⟩, score⟩], rr.2)
    else acc
  else acc

/-- `findBestSpot` (`src/utils/simulation.ts` line 175).  The occupied
set of `"x,y"` strings is a list of points; the result is paired with
the remaining oracle.  `candidates.sort((a, b) => a.score - b.score)` is
a stable ascending sort (guaranteed by the JavaScript specification),
modelled by `List.mergeSort`. -/
def findBestSpot (grid : Grid) (occupiedSpots : List Point)
    (entryPoint : Point) (carType : SpotType) (profile : DriverProfile)
    (mallDistanceMap : Option DistMap) (rng : List JsNum) :
    Option Point × List JsNum :=
  let wMall := 2 * profile.walkingPreference
  let wEntry := (1 / 2 : JsNum) * (1 - profile.walkingPreference)
  let wRandom : JsNum := 1 / 5
  let cr := (cellsWithCoords grid).foldl
    (candCell occupiedSpots entryPoint carType wMall wEntry wRandom mallDistanceMap)
    ([], rng)
  match cr.1 with
  | [] => (Option.none, cr.2)
  | _ :: _ =>
    let sorted := sortStable (fun a b => a.score.ble b.score) cr.1
    (sorted.head?.map Cand.point, cr.2)

/-- `getEntryPoints` (`src/utils/simulation.ts` line 230). -/
def getEntryPoints (grid : Grid) : List Point :=
  grid.enum.flatMap fun yrow =>
    yrow.2.enum.filterMap fun xcell =>
      if xcell.2.type = CellType.entry then
        some ⟨(xcell.1 : Int), (yrow.1 : Int)⟩
      else Option.none

/-- Inner `x` loop of `getExitPoint` over one row; the source bounds it
by `grid[0].length`, so on a ragged shorter row the read
`grid[y][x].type` can throw (modelled by the outer `Option.none`). -/
def exitScanRow (row : List GridCell) (y : Nat) :
    List Nat → Option (Option Point)
  | [] => some Option.none
  | x :: rest =>
    match row[x]? with
    | Option.none => Option.none
    | some c =>
      if c.type = CellType.exit then some (some ⟨(x : Int), (y : Int)⟩)
      else exitScanRow row y rest

/-- Outer `y` loop of `getExitPoint`. -/
def exitScanRows (width : Nat) :
    List (Nat × List GridCell) → Option (Option Point)
  | [] => some Option.none
  | (y, row) :: rows =>
    match exitScanRow row y (List.range width) with
    | Option.none => Option.none
    | some (some p) => some (some p)
    | some Option.none => exitScanRows width rows

/-- `getExitPoint` (`src/utils/simulation.ts` line 238): first Exit cell
in row-major order, `null` (the inner `some Option.none`) when there is
none.  On an empty grid the outer loop never runs, so nothing throws. -/
def getExitPoint (grid : Grid) : Option (Option Point) :=
  match grid with
  | [] => some Option.none
  | row0 :: _ => exitScanRows row0.length grid.enum

/-! ## Simulation clock (tick callback of `src/App.tsx`, lines 508-597) -/

/-- Car lifecycle states from `src/types.ts` (the `parked` literal occurs
in the type but is never assigned by the simulation loop). -/
inductive CarState where
  | entering | parking | parked | exiting
  deriving DecidableEq, Repr

/-- The `Car` record from `src/types.ts`.  `id` keeps the raw
`Math.random()` draw whose base-36 digits form the identifier string. -/
structure Car where
  id : JsNum
  x : Int
  y : Int
  state : CarState
  target : Option Point
  parkingTime : Int
  color : String
  electricalCurrent : JsNum
  type : SpotType
  entryTick : Nat
  profile : DriverProfile
  path : Option (List Point)
  deriving DecidableEq, Repr

/-- The `CAR_COLORS` palette of `src/App.tsx`. -/
def CAR_COLORS : List String :=
  ["bg-blue-500", "bg-red-500", "bg-green-500",
   "bg-yellow-500", "bg-orange-500", "bg-cyan-500"]

/-- `new Set(prev).add(key)`. -/
def occAdd (occ : List Point) (p : Point) : List Point :=
  if p ∈ occ then occ else occ ++ [p]

/-- `new Set(prev).delete(key)`. -/
def occDel (occ : List Point) (p : Point) : List Point :=
  occ.erase p

/-- One active car processed by the tick callback (`prevCars.forEach`
body, `src/App.tsx` lines 516-556).  Returns the car for `nextCars`
(`Option.none` when an exiting car is dropped), the updated occupied
set, the increment of the `totalCars` statistic, and the remaining
oracle; the outer `Option.none` propagates a modelled `TypeError` from
`findPath`. -/
def stepCar (grid : Grid) (strictFlow : Bool) (exitPt : Option Point)
    (car : Car) (occ : List Point) (rng : List JsNum) :
    Option (Option Car × List Point × Nat × List JsNum) :=
  if car.state = CarState.entering ∨ car.state = CarState.exiting then
    match car.target with
    | Option.none => some (some car, occ, 0, rng)
    | some tgt =>
      let r1 := draw rng
      match findPath grid ⟨car.x, car.y⟩ tgt strictFlow with
      | Option.none => Option.none
      | some path =>
        match path with
        | _ :: p1 :: _ =>
          some (some { car with
              x := p1.x, y := p1.y,
              electricalCurrent := 12 + r1.1 * 6, path := some path },
            occ, 0, r1.2)
        | _ =>
          if car.state = CarState.entering then
            let r2 := draw r1.2
            some (some { car with
                state := CarState.parking,
                parkingTime := ((20 + r2.1 * 40) * car.profile.parkingDurationBias).floor,
                electricalCurrent := 1/2, path := some path },
              occ, 1, r2.2)
          else
            -- exiting car whose route collapsed: dropped from the active set
            some (Option.none, occ, 0, r1.2)
  else if car.state = CarState.parking then
    let r := draw rng
    let newTime := car.parkingTime - 1
    if newTime ≤ 0 then
      some (some { car with
          state := CarState.exiting, target := exitPt,
          parkingTime := newTime, electricalCurrent := 5 },
        occDel occ ⟨car.x, car.y⟩, 0, r.2)
    else
      some (some { car with
          parkingTime := newTime,
          electricalCurrent := 1/5 + r.1 * (1/10) },
        occAdd occ ⟨car.x, car.y⟩, 0, r.2)
  else
    -- `parked` state: no branch in the source, the copied car is pushed
    some (some car, occ, 0, rng)

/-- Fold of `stepCar` over the active car list in order. -/
def tickCars (grid : Grid) (strictFlow : Bool) (exitPt : Option Point) :
    List Car → List Car → List Point → Nat → List JsNum →
    Option (List Car × List Point × Nat × List JsNum)
  | [], acc, occ, total, rng => some (acc, occ, total, rng)
  | car :: cars, acc, occ, total, rng =>
    match stepCar grid strictFlow exitPt car occ rng with
    | Option.none => Option.none
    | some (carOpt, occ', dtotal, rng') =>
      tickCars grid strictFlow exitPt cars (acc ++ carOpt.toList) occ'
        (total + dtotal) rng'

/-- The spawn branch of the tick callback (`src/App.tsx` lines 558-594).
`occ0` is the occupied set captured by the effect closure (the value at
the start of the tick, which is what `findBestSpot` reads), `occ` the
up-to-date set the reservation is added to.  `prevCars` is the original
car list used by the entry-blocked check.  Out-of-range oracle values
would make the JavaScript index picks `undefined`; the junk default
`⟨0, 0⟩` is never reached for draws in `[0, 1)`. -/
def spawnStep (grid : Grid) (spawnRate : JsNum) (mallMap : Option DistMap)
    (tickNo : Nat) (prevCars : List Car) (occ0 occ : List Point)
    (rng : List JsNum) : Option Car × List Point × List JsNum :=
  let entries := getEntryPoints grid
  match entries with
  | [] => (Option.none, occ, rng)
  | _ :: _ =>
    let r0 := draw rng
    if r0.1 < spawnRate / 200 then
      let r1 := draw r0.2
      let spawnEntry :=
        (entries[((r1.1 * JsNum.ofInt entries.length).floor).toNat]?).getD ⟨0, 0⟩
      let r2 := draw r1.2
      let rand := r2.1
      let r3 := draw r2.2
      let color0 :=
        (CAR_COLORS[((r3.1 * JsNum.ofInt CAR_COLORS.length).floor).toNat]?).getD ""
      let carType := if rand < 1/10 then SpotType.ev
        else if rand < 3/20 then SpotType.disabled
        else SpotType.standard
      let color := if rand < 1/10 then "bg-emerald-500"
        else if rand < 3/20 then "bg-blue-600"
        else color0
      let r4 := draw r3.2
      let r5 := draw r4.2
      let r6 := draw r5.2
      let driverProfile := createDriverProfile r4.1 r5.1 r6.1
      let sel := findBestSpot grid occ0 spawnEntry carType driverProfile mallMap r6.2
      let isBlocked := prevCars.any fun c => c.x = spawnEntry.x ∧ c.y = spawnEntry.y
      match sel.1 with
      | some targetSpot =>
        if isBlocked then (Option.none, occ, sel.2)
        else
          let rid := draw sel.2
          (some ⟨rid.1, spawnEntry.x, spawnEntry.y, CarState.entering,
                 some targetSpot, 0, color, 0, carType, tickNo, driverProfile,
                 Option.none⟩,
           occAdd occ targetSpot, rid.2)
      | Option.none => (Option.none, occ, sel.2)
    else (Option.none, occ, r0.2)

/-- One full simulation tick (the `setCars` callback of `src/App.tsx`):
process every active car in order, then attempt one spawn.  Returns the
new car list, the new occupied set, the increment of the `totalCars`
statistic, and the remaining oracle; `Option.none` propagates a modelled
`TypeError`. -/
def tick (grid : Grid) (strictFlow : Bool) (spawnRate : JsNum)
    (mallMap : Option DistMap) (tickNo : Nat) (cars : List Car)
    (occ : List Point) (rng : List JsNum) :
    Option (List Car × List Point × Nat × List JsNum) :=
  match getExitPoint grid with
  | Option.none => Option.none
  | some exitPt =>
    match tickCars grid strictFlow exitPt cars [] occ 0 rng with
    | Option.none => Option.none
    | some (nextCars, occ1, total, rng1) =>
      let sp := spawnStep grid spawnRate mallMap tickNo cars occ occ1 rng1
      some (nextCars ++ sp.1.toList, sp.2.1, total, sp.2.2)

/-! ## Specification-side predicates -/

/-- The bounds test of both search loops. -/
abbrev InB (width height : Nat) (p : Point) : Prop :=
  0 ≤ p.x ∧ p.x < (width : Int) ∧ 0 ≤ p.y ∧ p.y < (height : Int)

/-- One legal move of the route finder from `u` to `v`: some direction
takes `u` to `v` and every traversal check of the `findPath` direction
loop passes.  The visited-set test is not part of legality. -/
def legalStepB (grid : Grid) (width height : Nat) (strictMode : Bool)
    (target : Point) (u v : Point) : Bool :=
  match cellAt grid u with
  | Option.none => false
  | some cu =>
    directions.any fun d =>
      decide (v = pmove u d) &&
        decide (moveOk grid width height strictMode target u cu d = some true)

/-- A legal route of the route finder ending at `p`: a nonempty sequence
of cells starting at `start`, ending at `p`, every consecutive pair of
which is a legal move (hence orthogonally adjacent).  The walkability
rules reference the search target `target` throughout (a Parking cell
may only be entered when it is the target). -/
def RouteTo (grid : Grid) (width height : Nat) (strictMode : Bool)
    (target start p : Point) (r : List Point) : Prop :=
  r ≠ [] ∧ r.head? = some start ∧ r.getLast? = some p ∧
    List.Chain' (fun u v => legalStepB grid width height strictMode target u v = true) r

/-- One hop of a pedestrian-distance walk: to an in-bounds, non-Wall,
orthogonally adjacent cell. -/
def MallStep (grid : Grid) (width height : Nat) (u v : Point) : Prop :=
  InB width height v ∧ (∃ d ∈ dirs2, v = ⟨u.x + d.1, u.y + d.2⟩) ∧
    (∃ c, cellAt grid v = some c ∧ c.type ≠ CellType.wall)

/-- A walk witnessing walking distance: it starts at an in-bounds
Destination (Mall) cell and never crosses a Wall cell.  Its hop count is
its length minus one. -/
def MallWalk (grid : Grid) (width height : Nat) (wk : List Point) : Prop :=
  (∃ p0, wk.head? = some p0 ∧ InB width height p0 ∧
     (∃ c, cellAt grid p0 = some c ∧ c.type = CellType.mall)) ∧
  List.Chain' (MallStep grid width height) wk

/-- Cell `p` is reachable from some Mall cell in exactly `n` hops. -/
def MallReach (grid : Grid) (width height : Nat) (p : Point) (n : ℕ) : Prop :=
  ∃ wk, MallWalk grid width height wk ∧ wk.getLast? = some p ∧ wk.length = n + 1

/-- The distance field of `p` read as `mget`. -/
def mval (m : DistMap) (p : Point) : Option ℕ∞ := mget m p.y p.x

/-- A `height × width` rectangular distance field. -/
def MapRect (width height : Nat) (m : DistMap) : Prop :=
  m.length = height ∧ ∀ row ∈ m, row.length = width

/-- Number of `Infinity` entries of a distance field — the potential
showing the relaxation loop's fuel suffices (every enqueue turns one
`Infinity` entry finite). -/
def topCount (m : DistMap) : Nat :=
  (m.map fun row => (row.filter fun v => v = ⊤).length).sum

/-- The loop invariant of `generateMallDistanceMap`'s FIFO relaxation.

`shape` is the FIFO monotonicity: the queue is a block of cells recorded
at distance `D` followed by a block at `D + 1`.  `settled_le` bounds
every finite cell outside the queue by the front's value.  `sound` says
finite recorded values are attained by actual walks, `stable` that a
settled cell's neighbours are already within one hop of it, and `mall0`
that Destination cells stay at `0`. -/
structure DInv (grid : Grid) (width height : Nat) (m : DistMap)
    (q : List Point) : Prop where
  rect : MapRect width height m
  qin : ∀ p ∈ q, InB width height p
  shape : ∃ (D : ℕ) (q1 q2 : List Point), q = q1 ++ q2 ∧
    (∀ p ∈ q1, mval m p = some (D : ℕ∞)) ∧
    (∀ p ∈ q2, mval m p = some ((D + 1 : ℕ) : ℕ∞))
  settled_le : ∀ f, q.head? = some f → ∀ Df : ℕ, mval m f = some (Df : ℕ∞) →
    ∀ p, InB width height p → p ∉ q → ∀ n : ℕ, mval m p = some (n : ℕ∞) →
      n ≤ Df
  sound : ∀ p, InB width height p → ∀ n : ℕ, mval m p = some (n : ℕ∞) →
    MallReach grid width height p n
  stable : ∀ p, InB width height p → p ∉ q → ∀ n : ℕ,
    mval m p = some (n : ℕ∞) →
    ∀ p', MallStep grid width height p p' →
      ∃ n' : ℕ, mval m p' = some ((n' : ℕ∞)) ∧ n' ≤ n + 1
  mall0 : ∀ p, InB width height p →
    (∃ c, cellAt grid p = some c ∧ c.type = CellType.mall) →
    mval m p = some (0 : ℕ∞)

/-- The loop invariant of `findPath`'s breadth-first search.  `P` lists
the processed (already dequeued) positions — a ghost of the proof, not of
the code.  `shape` is FIFO monotonicity: the pending paths have length
`D` then `D + 1`, and the front block is empty only when the whole queue
is.  `vis` identifies the visited set with the processed and pending
positions, `cp` says every legal move out of a processed cell lands on a
visited cell, `g2` that every legal route shorter than `D` ends on a
processed cell, `cg` that every legal route of length at most `D` ends
on a visited cell, `vs` that a pending path is shortest among legal
routes to its endpoint, and `htgt` that the target is never processed
(processing it returns instead). -/
structure FInv (grid : Grid) (width height : Nat) (strictMode : Bool)
    (target start : Point) (P : List Point)
    (Q : List (Point × List Point)) (V : List Point) (D : ℕ) : Prop where
  dpos : 1 ≤ D
  qroutes : ∀ e ∈ Q, RouteTo grid width height strictMode target start e.1 e.2
  qin : ∀ e ∈ Q, InB width height e.1
  shape : ∃ q1 q2, Q = q1 ++ q2 ∧ (∀ e ∈ q1, e.2.length = D) ∧
    (∀ e ∈ q2, e.2.length = D + 1) ∧ (q1 = [] → q2 = [])
  vis : ∀ u, u ∈ V ↔ (u ∈ P ∨ ∃ pu, (u, pu) ∈ Q)
  vnodup : V.Nodup
  vin : ∀ u ∈ V, InB width height u
  sv : start ∈ V
  cp : ∀ u ∈ P, ∀ c, cellAt grid u = some c → ∀ d ∈ directions,
    moveOk grid width height strictMode target u c d = some true →
    pmove u d ∈ V
  g2 : ∀ u r, RouteTo grid width height strictMode target start u r →
    r.length < D → u ∈ P
  cg : ∀ u r, RouteTo grid width height strictMode target start u r →
    r.length ≤ D → u ∈ V
  vs : ∀ e ∈ Q, ∀ r, RouteTo grid width height strictMode target start e.1 r →
    e.2.length ≤ r.length
  htgt : target ∉ P

/-! ## Concrete fixtures for counterexample runs and witnesses -/

/-- A cell with only a type: no flow, no spot type, no mask, no edges. -/
def plainCell (t : CellType) : GridCell :=
  ⟨t, 0, Option.none, Option.none, Option.none, false⟩

/-- A Path cell with an active flow rotation. -/
def flowCell (rot : Int) : GridCell :=
  ⟨CellType.path, rot, Option.none, Option.none, Option.none, true⟩

/-- A Parking cell of the given spot type. -/
def spotCell (t : SpotType) : GridCell :=
  ⟨CellType.parking, 0, some t, Option.none, Option.none, false⟩

/-- Fixture: `[ENTRY, flowless PATH, PARKING, MALL]` in one row.  Under
strict flow the Parking spot is selectable but unreachable (the flowless
Path cell is not walkable), while every cell has a finite mall
distance. -/
def gridA : Grid :=
  [[plainCell CellType.entry, plainCell CellType.path,
    plainCell CellType.parking, plainCell CellType.mall]]

/-- The mall-distance field of `gridA` (evaluates to `[[3, 2, 1, 0]]`). -/
def mapA : DistMap := (generateMallDistanceMap gridA).getD []

/-- Oracle of the first tick of the leak run: spawn roll `0 < 1/4`,
entry pick, spot-type roll (`1/2` = Standard), colour pick, three
profile draws, one score-noise draw, id draw. -/
def rngSpawn : List JsNum := [0, 0, 1/2, 0, 1/2, 1/2, 9/10, 0, 1/2]

/-- Result of tick 1 of the leak run, from no cars and no occupancy. -/
def leakTick1 : Option (List Car × List Point × Nat × List JsNum) :=
  tick gridA true 50 (some mapA) 0 [] [] rngSpawn

/-- Result of tick 2 (oracle: one current draw, one dwell draw, one
failed spawn roll `1/2 ≥ 1/4`). -/
def leakTick2 : Option (List Car × List Point × Nat × List JsNum) :=
  leakTick1.bind fun s => tick gridA true 50 (some mapA) 1 s.1 s.2.1 [1/2, 1/2, 1/2]

/-- Result of tick 3 (oracle: one current draw, one failed spawn roll). -/
def leakTick3 : Option (List Car × List Point × Nat × List JsNum) :=
  leakTick2.bind fun s => tick gridA true 50 (some mapA) 2 s.1 s.2.1 [1/2, 1/2]

/-- The car produced by tick 1 of the leak run: Entering at the entry
cell `(0,0)`, reserved target `(2,0)`. -/
def carA : Car :=
  ⟨1/2, 0, 0, CarState.entering, some ⟨2, 0⟩, 0, "bg-blue-500", 0,
   SpotType.standard, 0, createDriverProfile (1/2) (1/2) (9/10), Option.none⟩

/-- An Exiting car at the entry cell of `gridA` whose target `(2,0)` is
unreachable under strict flow. -/
def carAExit : Car :=
  ⟨1/2, 0, 0, CarState.exiting, some ⟨2, 0⟩, 0, "bg-blue-500", 0,
   SpotType.standard, 0, createDriverProfile (1/2) (1/2) (9/10), Option.none⟩

/-- Fixture for the one-way counterexample: `[ENTRY, PATH flowing west]`.
Moving east into the second cell is a 180° flow mismatch. -/
def gridB : Grid := [[plainCell CellType.entry, flowCell 270]]

/-- Fixture for the strict-flow witnesses: `[ENTRY, PATH flowing east,
PARKING]`.  The eastbound route to the Parking target is legal under
strict flow. -/
def gridC : Grid :=
  [[plainCell CellType.entry, flowCell 90, plainCell CellType.parking]]

/-- Fixture: one EV and one Disabled parking spot. -/
def gridEVDis : Grid := [[spotCell SpotType.ev, spotCell SpotType.disabled]]

/-- Fixture: a Reserved spot and a Parking cell with no recorded spot
type. -/
def gridResNone : Grid :=
  [[spotCell SpotType.reserved,
    ⟨CellType.parking, 0, Option.none, Option.none, Option.none, false⟩]]

/-- Fixture: the driver profile drawn from oracle values
`1/2, 1/2, 9/10`. -/
def profHalf : DriverProfile := createDriverProfile (1/2) (1/2) (9/10)

/-! # Theorems -/

/-! ## C9 — start equals target -/

/-- C9: on a non-empty grid containing the given coordinates and for
both values of `strictFlow`, `findPath` with `start = target` returns
the one-element sequence containing just that cell, before any
traversal-legality rule is applied — whatever the cell there holds
(Wall, blocked, foreign Parking, flowless Path, …). -/
theorem claim_C9_start_eq_target (grid : Grid) (width height : Nat)
    (p : Point) (strictMode : Bool) (hh : grid.length = height)
    (hw : ∀ row ∈ grid, row.length = width) (hp : InB width height p) :
    findPath grid p p strictMode = some [p] := by
  obtain ⟨-, -, hy0, hyh⟩ := hp
  cases grid with
  | nil =>
    subst hh
    simp only [List.length_nil] at hyh ⊢
    omega
  | cons row0 rest =>
    simp [findPath, findPathAux]

/-- Witness for C9: the flowless Path cell `(1, 0)` of `gridA` (not
walkable at all under strict flow) is still returned as a singleton
route when it is both start and target. -/
theorem claim_C9_witness :
    ((gridA.length = 1 ∧ (∀ row ∈ gridA, row.length = 4)) ∧
      InB 4 1 (⟨1, 0⟩ : Point)) ∧
    findPath gridA ⟨1, 0⟩ ⟨1, 0⟩ true = some [⟨1, 0⟩] :=
  ⟨⟨⟨by decide, by decide⟩, by decide⟩,
   claim_C9_start_eq_target gridA 4 1 ⟨1, 0⟩ true (by decide) (by decide)
     (by decide)⟩

/-! ## C8 — zero-sized grids -/

/-- Helper: a grid all of whose rows are empty has no Mall seeds. -/
theorem mallSeeds_eq_nil_of_rows_nil (grid : Grid)
    (hrow : ∀ row ∈ grid, row = []) : mallSeeds grid = [] := by
  unfold mallSeeds
  rw [List.eq_nil_iff_forall_not_mem]
  intro p hp
  rw [List.mem_flatMap] at hp
  obtain ⟨yrow, hy, hp⟩ := hp
  have h2 : yrow.2 ∈ grid :=
    List.getElem?_mem (List.mem_enum_iff_getElem?.mp hy)
  rw [hrow _ h2] at hp
  simp at hp

/-- C8: the Distance Field Builder does treat a zero-sized grid as an
immediately empty field, but `findPath` evaluates `grid[0].length`
without a guard: on a grid with no rows this is a `TypeError` (modelled
`Option.none`), and on a grid of zero-width rows the start-cell read
throws likewise — not the empty route the claim requires. -/
theorem claim_C8_zero_sized_grid :
    (∀ grid : Grid, (∀ row ∈ grid, row = []) →
        generateMallDistanceMap grid = some (List.replicate grid.length [])) ∧
    findPath [] ⟨0, 0⟩ ⟨1, 0⟩ true = Option.none ∧
    findPath [[]] ⟨0, 0⟩ ⟨1, 0⟩ true = Option.none := by
  refine ⟨?_, rfl, by decide⟩
  intro grid hrow
  have hseeds := mallSeeds_eq_nil_of_rows_nil grid hrow
  have hwidth : (grid.head?.map List.length).getD 0 = 0 := by
    cases grid with
    | nil => rfl
    | cons row rest => simp [hrow row (by simp)]
  unfold generateMallDistanceMap
  simp [hseeds, hwidth, bfsLoop]

/-- Witness for C8's distance-map half on the concrete three-row
zero-width grid. -/
theorem claim_C8_witness :
    (∀ row ∈ ([[], [], []] : Grid), row = []) ∧
    generateMallDistanceMap [[], [], []] = some [[], [], []] :=
  ⟨by decide, by
    have h := claim_C8_zero_sized_grid.1 [[], [], []] (by decide)
    simpa using h⟩

/-! ## C3 — empty route is treated as arrival, not retried -/

/-- C3 fails on the code: when the recomputed route of an active vehicle
is empty (no legal route — here the strict-flow `gridA` whose Parking
target is unreachable), the tick does not leave the vehicle unchanged
for a retry.  `path.length > 1` is false for an empty path, so the
arrival branch runs: the Entering car at `(0, 0)` transitions to
Parking in place (dwell 74 from the oracle), and an Exiting car in the
same situation is dropped from the active set entirely. -/
theorem claim_C3_empty_route_not_retried :
    findPath gridA ⟨0, 0⟩ ⟨2, 0⟩ true = some [] ∧
    (tick gridA true 50 (some mapA) 1 [carA] [⟨2, 0⟩] [1/2, 1/2, 1/2]).map
        (fun s => (s.1.map fun c => (c.state, c.x, c.y), s.2.1)) =
      some ([(CarState.parking, 0, 0)], [⟨2, 0⟩]) ∧
    (tick gridA true 50 (some mapA) 1 [carAExit] [] [1/2, 1/2]).map
        (fun s => (s.1, s.2.1)) = some ([], []) :=
  ⟨by decide, by decide, by decide⟩

/-! ## C4 — occupancy accounting -/

/-- C4 fails on the code, as a consequence of the behaviour shown in
`claim_C3_empty_route_not_retried`: starting from no cars and no
occupancy, tick 1 spawns a car reserving the unreachable spot `(2, 0)`,
tick 2 parks it in place at `(0, 0)` (the reservation leaks), and at the
tick-3 boundary the occupied set has 2 entries while there is 1 Parking
and 0 Entering vehicles. -/
theorem claim_C4_occupancy_mismatch :
    leakTick3.map (fun s =>
        (s.2.1.length,
         (s.1.filter fun c => decide (c.state = CarState.parking)).length,
         (s.1.filter fun c => decide (c.state = CarState.entering)).length)) =
      some (2, 1, 0) := by decide

/-! ## C7 and C10 — spot-selector safety -/

/-- Membership in a stable insertion. -/
theorem mem_insertLe {α : Type} (le : α → α → Bool) (a x : α) (l : List α) :
    x ∈ insertLe le a l ↔ x = a ∨ x ∈ l := by
  induction l with
  | nil => simp [insertLe]
  | cons b bs ih =>
    unfold insertLe
    by_cases h : le b a
    · simp [h, ih]
      tauto
    · simp [h]

/-- The stable sort returns a sublist-permutation: membership only. -/
theorem mem_of_mem_sortStable {α : Type} (le : α → α → Bool) (x : α)
    (l : List α) : x ∈ sortStable le l → x ∈ l := by
  unfold sortStable
  suffices h : ∀ acc, x ∈ l.foldl (fun acc a => insertLe le a acc) acc →
      x ∈ acc ∨ x ∈ l by
    intro hx
    rcases h [] hx with h' | h'
    · simp at h'
    · exact h'
  induction l with
  | nil =>
    intro acc h
    exact Or.inl h
  | cons b bs ih =>
    intro acc h
    simp only [List.foldl_cons] at h
    rcases ih (insertLe le b acc) h with h' | h'
    · rcases (mem_insertLe le b x acc).mp h' with rfl | h''
      · right; simp
      · left; exact h''
    · right
      exact List.mem_cons_of_mem _ h'

/-- What one loop body of the candidate collection can contribute. -/
theorem mem_candCell (occ : List Point) (entry : Point) (carType : SpotType)
    (wM wE wR : JsNum) (map : Option DistMap) (acc : List Cand × List JsNum)
    (yxc : Nat × Nat × GridCell) (c : Cand)
    (h : c ∈ (candCell occ entry carType wM wE wR map acc yxc).1) :
    c ∈ acc.1 ∨
      (yxc.2.2.type = CellType.parking ∧
        (⟨(yxc.2.1 : Int), (yxc.1 : Int)⟩ : Point) ∉ occ ∧
        isCompatibleB carType (yxc.2.2.spotType.getD SpotType.standard) = true ∧
        c.point = ⟨(yxc.2.1 : Int), (yxc.1 : Int)⟩) := by
  simp only [candCell] at h
  split_ifs at h with h1 h2
  · simp only [List.mem_append, List.mem_singleton] at h
    rcases h with h | rfl
    · exact Or.inl h
    · exact Or.inr ⟨h1.1, h1.2, h2, rfl⟩
  · exact Or.inl h
  · exact Or.inl h

/-- Any collected candidate satisfies the selector's filters. -/
theorem mem_candFold (occ : List Point) (entry : Point) (carType : SpotType)
    (wM wE wR : JsNum) (map : Option DistMap) (c : Cand)
    (l : List (Nat × Nat × GridCell)) :
    ∀ acc : List Cand × List JsNum,
      c ∈ (l.foldl (candCell occ entry carType wM wE wR map) acc).1 →
      c ∈ acc.1 ∨ ∃ yxc ∈ l,
        yxc.2.2.type = CellType.parking ∧
        (⟨(yxc.2.1 : Int), (yxc.1 : Int)⟩ : Point) ∉ occ ∧
        isCompatibleB carType (yxc.2.2.spotType.getD SpotType.standard) = true ∧
        c.point = ⟨(yxc.2.1 : Int), (yxc.1 : Int)⟩ := by
  induction l with
  | nil =>
    intro acc h
    exact Or.inl h
  | cons yxc rest ih =>
    intro acc h
    simp only [List.foldl_cons] at h
    rcases ih _ h with h' | h'
    · rcases mem_candCell occ entry carType wM wE wR map acc yxc c h' with h'' | h''
      · exact Or.inl h''
      · exact Or.inr ⟨yxc, by simp, h''⟩
    · obtain ⟨y, hy, hrest⟩ := h'
      exact Or.inr ⟨y, List.mem_cons_of_mem _ hy, hrest⟩

/-- A coordinate triple produced by `cellsWithCoords` is a real cell of
the grid. -/
theorem cellAt_of_mem_cellsWithCoords (grid : Grid)
    (yxc : Nat × Nat × GridCell) (h : yxc ∈ cellsWithCoords grid) :
    cellAt grid ⟨(yxc.2.1 : Int), (yxc.1 : Int)⟩ = some yxc.2.2 := by
  unfold cellsWithCoords at h
  rw [List.mem_flatMap] at h
  obtain ⟨yrow, hy, h⟩ := h
  rw [List.mem_map] at h
  obtain ⟨xcell, hx, heq⟩ := h
  have hrow : grid[yrow.1]? = some yrow.2 := List.mem_enum_iff_getElem?.mp hy
  have hcell : yrow.2[xcell.1]? = some xcell.2 := List.mem_enum_iff_getElem?.mp hx
  subst heq
  unfold cellAt
  simp only [Int.toNat_natCast]
  rw [if_pos (by constructor <;> positivity), hrow]
  exact hcell

/-- Core safety of `findBestSpot`: a returned spot is an unoccupied
Parking cell of the grid whose (defaulted) spot type passes the
compatibility check. -/
theorem findBestSpot_safe (grid : Grid) (occ : List Point) (entry : Point)
    (carType : SpotType) (profile : DriverProfile) (map : Option DistMap)
    (rng : List JsNum) (p : Point)
    (hsel : (findBestSpot grid occ entry carType profile map rng).1 = some p) :
    p ∉ occ ∧ ∃ cell, cellAt grid p = some cell ∧
      cell.type = CellType.parking ∧
      isCompatibleB carType (cell.spotType.getD SpotType.standard) = true := by
  simp only [findBestSpot] at hsel
  split at hsel
  · simp at hsel
  · simp only [Option.map_eq_some'] at hsel
    obtain ⟨c, hhead, hpt⟩ := hsel
    have hc2 := mem_of_mem_sortStable _ c _ (List.mem_of_mem_head? hhead)
    rcases mem_candFold occ entry carType _ _ _ map c (cellsWithCoords grid)
        ([], rng) hc2 with h0 | ⟨yxc, hmem, hpark, hocc, hcompat, hcpt⟩
    · simp at h0
    · have hcell := cellAt_of_mem_cellsWithCoords grid yxc hmem
      subst hpt
      rw [hcpt]
      exact ⟨hocc, yxc.2.2, hcell, hpark, hcompat⟩

/-- The compatibility check read back as the specification's table. -/
theorem isCompatibleB_cases (ct st : SpotType) (h : isCompatibleB ct st = true) :
    (ct = SpotType.ev → st = SpotType.ev ∨ st = SpotType.standard) ∧
    (ct = SpotType.disabled → st = SpotType.disabled) ∧
    (ct ≠ SpotType.ev → ct ≠ SpotType.disabled →
      st = SpotType.standard ∨ st = SpotType.compact) := by
  revert h
  cases ct <;> cases st <;> decide

/-- No preference is compatible with a Reserved spot. -/
theorem isCompatibleB_reserved (ct : SpotType) :
    isCompatibleB ct SpotType.reserved = false := by
  cases ct <;> decide

/-- C7: `findBestSpot` never returns a cell in the occupied set, nor one
whose spot type is incompatible with the preference — an EV preference
gets only EV or Standard spots, a Disabled preference only Disabled
spots, any other preference only Standard or Compact spots; and in the
two-spot EV/Disabled grid, an EV-preference request with only the
Disabled spot free receives no assignment. -/
theorem claim_C7_selector_compatibility :
    (∀ (grid : Grid) (occ : List Point) (entry : Point) (carType : SpotType)
        (profile : DriverProfile) (map : Option DistMap) (rng : List JsNum)
        (p : Point),
        (findBestSpot grid occ entry carType profile map rng).1 = some p →
        p ∉ occ ∧ ∃ cell, cellAt grid p = some cell ∧
          cell.type = CellType.parking ∧
          (carType = SpotType.ev →
            cell.spotType.getD SpotType.standard = SpotType.ev ∨
            cell.spotType.getD SpotType.standard = SpotType.standard) ∧
          (carType = SpotType.disabled →
            cell.spotType.getD SpotType.standard = SpotType.disabled) ∧
          (carType ≠ SpotType.ev → carType ≠ SpotType.disabled →
            cell.spotType.getD SpotType.standard = SpotType.standard ∨
            cell.spotType.getD SpotType.standard = SpotType.compact)) ∧
    (findBestSpot gridEVDis [⟨0, 0⟩] ⟨0, 0⟩ SpotType.ev profHalf Option.none
        []).1 = Option.none := by
  constructor
  · intro grid occ entry carType profile map rng p hsel
    obtain ⟨hocc, cell, hcell, hpark, hcompat⟩ :=
      findBestSpot_safe grid occ entry carType profile map rng p hsel
    obtain ⟨h1, h2, h3⟩ := isCompatibleB_cases _ _ hcompat
    exact ⟨hocc, cell, hcell, hpark, h1, h2, h3⟩
  · decide

/-- Witness for C7: on the EV/Disabled grid with nothing occupied, the
EV-preference selector returns the EV spot `(0, 0)`, and the safety
conclusions hold there. -/
theorem claim_C7_witness :
    (findBestSpot gridEVDis [] ⟨0, 0⟩ SpotType.ev profHalf Option.none
        [0]).1 = some ⟨0, 0⟩ ∧
    ((⟨0, 0⟩ : Point) ∉ ([] : List Point) ∧
      ∃ cell, cellAt gridEVDis ⟨0, 0⟩ = some cell ∧
        cell.type = CellType.parking ∧
        (SpotType.ev = SpotType.ev →
          cell.spotType.getD SpotType.standard = SpotType.ev ∨
          cell.spotType.getD SpotType.standard = SpotType.standard) ∧
        (SpotType.ev = SpotType.disabled →
          cell.spotType.getD SpotType.standard = SpotType.disabled) ∧
        (SpotType.ev ≠ SpotType.ev → SpotType.ev ≠ SpotType.disabled →
          cell.spotType.getD SpotType.standard = SpotType.standard ∨
          cell.spotType.getD SpotType.standard = SpotType.compact)) :=
  ⟨by decide,
   claim_C7_selector_compatibility.1 gridEVDis [] ⟨0, 0⟩ SpotType.ev profHalf
     Option.none [0] ⟨0, 0⟩ (by decide)⟩

/-- C10: `findBestSpot` never returns a Parking cell recorded as
Reserved, for any preference; and a Parking cell with no recorded spot
type is treated as Standard, hence eligible for both Standard- and
EV-preference vehicles (shown on the Reserved/no-type grid, where both
preferences receive the no-type cell `(1, 0)`). -/
theorem claim_C10_reserved_never_default_standard :
    (∀ (grid : Grid) (occ : List Point) (entry : Point) (carType : SpotType)
        (profile : DriverProfile) (map : Option DistMap) (rng : List JsNum)
        (p : Point),
        (findBestSpot grid occ entry carType profile map rng).1 = some p →
        ∀ cell, cellAt grid p = some cell →
          cell.spotType ≠ some SpotType.reserved) ∧
    (findBestSpot gridResNone [] ⟨0, 0⟩ SpotType.standard profHalf
        Option.none [0]).1 = some ⟨1, 0⟩ ∧
    (findBestSpot gridResNone [] ⟨0, 0⟩ SpotType.ev profHalf
        Option.none [0]).1 = some ⟨1, 0⟩ := by
  refine ⟨?_, by decide, by decide⟩
  intro grid occ entry carType profile map rng p hsel cell hcell hres
  obtain ⟨-, cell', hcell', -, hcompat⟩ :=
    findBestSpot_safe grid occ entry carType profile map rng p hsel
  rw [hcell] at hcell'
  cases hcell'
  rw [hres] at hcompat
  simp only [Option.getD_some] at hcompat
  rw [isCompatibleB_reserved] at hcompat
  exact Bool.false_ne_true hcompat

/-- Witness for C10: the Standard-preference run on the Reserved/no-type
grid, where the returned cell `(1, 0)` is indeed not Reserved. -/
theorem claim_C10_witness :
    (findBestSpot gridResNone [] ⟨0, 0⟩ SpotType.standard profHalf
        Option.none [0]).1 = some ⟨1, 0⟩ ∧
    (∀ cell, cellAt gridResNone ⟨1, 0⟩ = some cell →
      cell.spotType ≠ some SpotType.reserved) :=
  ⟨by decide,
   claim_C10_reserved_never_default_standard.1 gridResNone [] ⟨0, 0⟩
     SpotType.standard profHalf Option.none [0] ⟨1, 0⟩ (by decide)⟩

/-! ## C2 — distance-field correctness -/

section DistanceField

variable (grid : Grid) (width height : Nat)

/-- Under the rectangularity assumptions, every in-bounds cell read
succeeds. -/
theorem cellAt_of_inB (hgh : grid.length = height)
    (hgw : ∀ row ∈ grid, row.length = width) (p : Point)
    (hp : InB width height p) : ∃ c, cellAt grid p = some c := by
  obtain ⟨hx0, hxw, hy0, hyh⟩ := hp
  unfold cellAt
  rw [if_pos ⟨hy0, hx0⟩]
  have hylt : p.y.toNat < grid.length := by omega
  obtain ⟨row, hrow⟩ : ∃ row, grid[p.y.toNat]? = some row :=
    ⟨_, List.getElem?_eq_getElem hylt⟩
  rw [hrow]
  have hmem : row ∈ grid := by
    have := List.getElem?_mem hrow
    exact this
  have hxlt : p.x.toNat < row.length := by
    rw [hgw row hmem]; omega
  exact ⟨_, List.getElem?_eq_getElem hxlt⟩

/-- Under rectangularity, every in-bounds distance-field read succeeds. -/
theorem mval_some_of_inB (m : DistMap) (hm : MapRect width height m)
    (p : Point) (hp : InB width height p) : ∃ v, mval m p = some v := by
  obtain ⟨hx0, hxw, hy0, hyh⟩ := hp
  unfold mval mget
  rw [if_pos ⟨hy0, hx0⟩]
  have hylt : p.y.toNat < m.length := by
    rw [hm.1]; omega
  obtain ⟨row, hrow⟩ : ∃ row, m[p.y.toNat]? = some row :=
    ⟨_, List.getElem?_eq_getElem hylt⟩
  rw [hrow]
  have hxlt : p.x.toNat < row.length := by
    rw [hm.2 row (List.getElem?_mem hrow)]; omega
  exact ⟨_, List.getElem?_eq_getElem hxlt⟩

/-- Writing preserves the field's shape. -/
theorem mapRect_mset (m : DistMap) (hm : MapRect width height m)
    (y x : Nat) (v : ℕ∞) : MapRect width height (mset m y x v) := by
  unfold mset
  match hrow : m[y]? with
  | Option.none => exact hm
  | some row =>
    refine ⟨by rw [List.length_set]; exact hm.1, ?_⟩
    intro r hr
    rcases List.mem_or_eq_of_mem_set hr with h | h
    · exact hm.2 r h
    · subst h
      rw [List.length_set]
      exact hm.2 row (List.getElem?_mem hrow)

/-- Reading back the written entry. -/
theorem mval_mset_self (m : DistMap) (hm : MapRect width height m)
    (p : Point) (hp : InB width height p) (v : ℕ∞) :
    mval (mset m p.y.toNat p.x.toNat v) p = some v := by
  obtain ⟨hx0, hxw, hy0, hyh⟩ := hp
  have hylt : p.y.toNat < m.length := by rw [hm.1]; omega
  obtain ⟨row, hrow⟩ : ∃ row, m[p.y.toNat]? = some row :=
    ⟨_, List.getElem?_eq_getElem hylt⟩
  have hxlt : p.x.toNat < row.length := by
    rw [hm.2 row (List.getElem?_mem hrow)]; omega
  unfold mval mget mset
  rw [hrow, if_pos ⟨hy0, hx0⟩]
  rw [List.getElem?_set_self hylt]
  simp only [Option.some.injEq]
  exact List.getElem?_set_self hxlt

/-- Reading any other point is unaffected by a write. -/
theorem mval_mset_other (m : DistMap) (p : Point) (hp : InB width height p)
    (q : Point) (hne : q ≠ p) (v : ℕ∞) :
    mval (mset m p.y.toNat p.x.toNat v) q = mval m q := by
  unfold mval mget mset
  match hrow : m[p.y.toNat]? with
  | Option.none => rfl
  | some row =>
    by_cases hq : 0 ≤ q.y ∧ 0 ≤ q.x
    · rw [if_pos hq, if_pos hq]
      by_cases hyy : q.y.toNat = p.y.toNat
      · have hxx : q.x.toNat ≠ p.x.toNat := by
          intro hxeq
          apply hne
          obtain ⟨hx0, hxw, hy0, hyh⟩ := hp
          have : q.y = p.y := by omega
          have : q.x = p.x := by omega
          cases q; cases p
          simp_all
        have hlt : p.y.toNat < m.length := by
          by_contra hge
          rw [List.getElem?_eq_none (by omega)] at hrow
          exact Option.noConfusion hrow
        rw [hyy, List.getElem?_set_self hlt, hrow]
        simp only
        exact List.getElem?_set_ne fun h => hxx h.symm
      · rw [List.getElem?_set_ne fun h => hyy h.symm]
    · rw [if_neg hq, if_neg hq]

/-- Soundness of the seed scan: every seed is an in-bounds Mall cell. -/
theorem mallSeeds_sound (hgh : grid.length = height)
    (hgw : ∀ row ∈ grid, row.length = width) (p : Point)
    (h : p ∈ mallSeeds grid) :
    InB width height p ∧ ∃ c, cellAt grid p = some c ∧ c.type = CellType.mall := by
  unfold mallSeeds at h
  rw [List.mem_flatMap] at h
  obtain ⟨yrow, hy, h⟩ := h
  rw [List.mem_filterMap] at h
  obtain ⟨xcell, hx, heq⟩ := h
  have hmall : xcell.2.type = CellType.mall := by
    by_contra hno
    rw [if_neg hno] at heq
    exact Option.noConfusion heq
  rw [if_pos hmall] at heq
  cases heq
  have hrow : grid[yrow.1]? = some yrow.2 := List.mem_enum_iff_getElem?.mp hy
  have hcell : yrow.2[xcell.1]? = some xcell.2 := List.mem_enum_iff_getElem?.mp hx
  have hylt : yrow.1 < grid.length := by
    by_contra hge
    rw [List.getElem?_eq_none (by omega)] at hrow
    exact Option.noConfusion hrow
  have hxlt : xcell.1 < yrow.2.length := by
    by_contra hge
    rw [List.getElem?_eq_none (by omega)] at hcell
    exact Option.noConfusion hcell
  have hxw : xcell.1 < width := by
    rw [← hgw yrow.2 (List.getElem?_mem hrow)]; exact hxlt
  have hin : InB width height (⟨(xcell.1 : Int), (yrow.1 : Int)⟩ : Point) := by
    refine ⟨?_, ?_, ?_, ?_⟩ <;> dsimp only <;> omega
  refine ⟨hin, xcell.2, ?_, hmall⟩
  unfold cellAt
  simp only [Int.toNat_natCast]
  rw [if_pos ⟨by positivity, by positivity⟩, hrow]
  exact hcell

/-- Completeness of the seed scan: every in-bounds Mall cell is a seed. -/
theorem mallSeeds_complete (p : Point) (hp : 0 ≤ p.x ∧ 0 ≤ p.y)
    (c : GridCell) (hc : cellAt grid p = some c)
    (hmall : c.type = CellType.mall) : p ∈ mallSeeds grid := by
  obtain ⟨hx0, hy0⟩ := hp
  unfold cellAt at hc
  rw [if_pos ⟨hy0, hx0⟩] at hc
  match hrow : grid[p.y.toNat]? with
  | Option.none => rw [hrow] at hc; exact Option.noConfusion hc
  | some row =>
    rw [hrow] at hc
    unfold mallSeeds
    rw [List.mem_flatMap]
    refine ⟨(p.y.toNat, row), List.mem_enum_iff_getElem?.mpr hrow, ?_⟩
    rw [List.mem_filterMap]
    refine ⟨(p.x.toNat, c), List.mem_enum_iff_getElem?.mpr hc, ?_⟩
    rw [if_pos hmall]
    congr 1
    cases p with
    | mk px py =>
      simp only [Point.mk.injEq]
      constructor <;> simp_all

/-- Pointwise description of seeding a list of cells to distance `0`. -/
theorem mval_seedFold (l : List Point) :
    ∀ m : DistMap, MapRect width height m → (∀ s ∈ l, InB width height s) →
    ∀ p : Point,
      mval (l.foldl (fun m q => mset m q.y.toNat q.x.toNat 0) m) p =
        if p ∈ l then some (0 : ℕ∞) else mval m p := by
  induction l with
  | nil =>
    intro m hm hl p
    simp
  | cons s rest ih =>
    intro m hm hl p
    have hs : InB width height s := hl s (by simp)
    have hm' : MapRect width height (mset m s.y.toNat s.x.toNat 0) :=
      mapRect_mset width height m hm _ _ _
    rw [List.foldl_cons, ih _ hm' (fun q hq => hl q (by simp [hq]))]
    by_cases hpr : p ∈ rest
    · rw [if_pos hpr, if_pos (by simp [hpr])]
    · rw [if_neg hpr]
      by_cases hps : p = s
      · subst hps
        rw [if_pos (by simp), mval_mset_self width height m hm p hs]
      · rw [if_neg (by simp [hpr, hps]), mval_mset_other width height m s hs p hps]

/-- The initial all-`Infinity` field is rectangular. -/
theorem mapRect_init :
    MapRect width height
      (List.replicate height (List.replicate width (⊤ : ℕ∞))) := by
  constructor
  · simp
  · intro row hrow
    rw [List.eq_of_mem_replicate hrow]
    simp

/-- The initial field reads `Infinity` at every in-bounds point. -/
theorem mval_init (p : Point) (hp : InB width height p) :
    mval (List.replicate height (List.replicate width (⊤ : ℕ∞))) p =
      some (⊤ : ℕ∞) := by
  obtain ⟨hx0, hxw, hy0, hyh⟩ := hp
  unfold mval mget
  rw [if_pos ⟨hy0, hx0⟩]
  rw [List.getElem?_replicate_of_lt (by omega)]
  simp only
  rw [List.getElem?_replicate_of_lt (by omega)]

/-- Walk decomposition: reachability in `n + 1` hops factors through a
reachable neighbour. -/
theorem mallReach_succ (p : Point) (n : ℕ)
    (h : MallReach grid width height p (n + 1)) :
    ∃ u, MallReach grid width height u n ∧ MallStep grid width height u p := by
  obtain ⟨wk, ⟨⟨p0, hhead, hp0in, hp0c⟩, hchain⟩, hlast, hlen⟩ := h
  have hne : wk ≠ [] := by
    intro habs
    rw [habs] at hlen
    simp at hlen
  have heq : wk = wk.dropLast ++ [wk.getLast hne] :=
    (List.dropLast_append_getLast hne).symm
  have hlastp : wk.getLast hne = p := by
    rw [List.getLast?_eq_getLast wk hne] at hlast
    exact Option.some.inj hlast
  have hdlen : wk.dropLast.length = n + 1 := by
    rw [List.length_dropLast, hlen]
    omega
  have hdne : wk.dropLast ≠ [] := by
    intro habs
    rw [habs] at hdlen
    simp at hdlen
  rw [heq] at hchain
  rw [List.chain'_append] at hchain
  obtain ⟨hchain', -, hconn⟩ := hchain
  have hu : ∃ u, wk.dropLast.getLast? = some u :=
    Option.isSome_iff_exists.mp (List.getLast?_isSome.mpr hdne)
  obtain ⟨u, hu⟩ := hu
  have hstep := hconn u hu (wk.getLast hne) (by simp)
  rw [hlastp] at hstep
  refine ⟨u, ⟨wk.dropLast, ⟨⟨p0, ?_, hp0in, hp0c⟩, hchain'⟩, hu, hdlen⟩, hstep⟩
  rw [heq, List.head?_append_of_ne_nil] at hhead
  · exact hhead
  · exact hdne

/-- A reachable cell is in bounds. -/
theorem mallReach_inB (p : Point) (n : ℕ)
    (h : MallReach grid width height p n) : InB width height p := by
  cases n with
  | zero =>
    obtain ⟨wk, ⟨⟨p0, hhead, hp0in, hp0c⟩, hchain⟩, hlast, hlen⟩ := h
    match wk, hlen with
    | [q], _ =>
      simp only [List.head?_cons, Option.some.injEq] at hhead
      simp only [List.getLast?_singleton, Option.some.injEq] at hlast
      subst hhead
      subst hlast
      exact hp0in
  | succ m =>
    obtain ⟨u, -, hstep⟩ := mallReach_succ grid width height p m h
    exact hstep.1

/-- Walk extension: a reachable cell's legal neighbour is reachable in
one more hop. -/
theorem mallReach_step (u p : Point) (n : ℕ)
    (hu : MallReach grid width height u n)
    (hstep : MallStep grid width height u p) :
    MallReach grid width height p (n + 1) := by
  obtain ⟨wk, ⟨⟨p0, hhead, hp0in, hp0c⟩, hchain⟩, hlast, hlen⟩ := hu
  have hne : wk ≠ [] := by
    intro habs
    rw [habs] at hlen
    simp at hlen
  refine ⟨wk ++ [p], ⟨⟨p0, ?_, hp0in, hp0c⟩, ?_⟩, ?_, ?_⟩
  · rw [List.head?_append_of_ne_nil _ hne]
    exact hhead
  · rw [List.chain'_append]
    refine ⟨hchain, List.chain'_singleton p, ?_⟩
    intro x hx y hy
    rw [hlast] at hx
    cases hx
    simp only [List.head?_cons, Option.some.injEq] at hy
    cases hy
    exact hstep
  · rw [List.getLast?_concat]
  · rw [List.length_append, hlen]
    simp

/-- Overwriting an `Infinity` entry with a finite value loses exactly
one `Infinity` from a row. -/
theorem filterTop_set (v : ℕ∞) (hv : v ≠ ⊤) :
    ∀ (l : List ℕ∞) (x : Nat), l[x]? = some ⊤ →
      ((l.set x v).filter fun w => w = ⊤).length + 1 =
        (l.filter fun w => w = ⊤).length := by
  intro l
  induction l with
  | nil =>
    intro x h
    simp at h
  | cons a as ih =>
    intro x h
    cases x with
    | zero =>
      simp only [List.getElem?_cons_zero, Option.some.injEq] at h
      subst h
      simp [List.set, List.filter_cons, hv]
    | succ x' =>
      simp only [List.getElem?_cons_succ] at h
      have hih := ih x' h
      by_cases ha : a = ⊤
      · simp only [List.set, List.filter_cons]
        simp [ha]
        omega
      · simp only [List.set, List.filter_cons]
        simp [ha]
        omega

/-- Replacing one row shifts the `Infinity` count by the rows'
difference. -/
theorem topCount_set_row :
    ∀ (m : DistMap) (y : Nat) (row row' : List ℕ∞), m[y]? = some row →
      topCount (m.set y row') + (row.filter fun w => w = ⊤).length =
        topCount m + (row'.filter fun w => w = ⊤).length := by
  intro m
  induction m with
  | nil =>
    intro y row row' h
    simp at h
  | cons r rs ih =>
    intro y row row' h
    cases y with
    | zero =>
      simp only [List.getElem?_cons_zero, Option.some.injEq] at h
      subst h
      simp only [List.set, topCount, List.map_cons, List.sum_cons]
      omega
    | succ y' =>
      simp only [List.getElem?_cons_succ] at h
      simp only [List.set, topCount, List.map_cons, List.sum_cons]
      have := ih y' row row' h
      simp only [topCount] at this
      omega

/-- Relaxing an `Infinity` cell to a finite value decreases the
`Infinity` count by one. -/
theorem topCount_mset (m : DistMap) (hm : MapRect width height m)
    (p : Point) (hp : InB width height p) (v : ℕ∞) (hv : v ≠ ⊤)
    (hold : mval m p = some ⊤) :
    topCount (mset m p.y.toNat p.x.toNat v) + 1 = topCount m := by
  obtain ⟨hx0, hxw, hy0, hyh⟩ := hp
  have hylt : p.y.toNat < m.length := by rw [hm.1]; omega
  obtain ⟨row, hrow⟩ : ∃ row, m[p.y.toNat]? = some row :=
    ⟨_, List.getElem?_eq_getElem hylt⟩
  have hcell : row[p.x.toNat]? = some ⊤ := by
    unfold mval mget at hold
    rw [if_pos ⟨hy0, hx0⟩, hrow] at hold
    exact hold
  have hmseteq : mset m p.y.toNat p.x.toNat v =
      m.set p.y.toNat (row.set p.x.toNat v) := by
    unfold mset
    rw [hrow]
  rw [hmseteq]
  have h1 := topCount_set_row m p.y.toNat row (row.set p.x.toNat v) hrow
  have h2 := filterTop_set v hv row p.x.toNat hcell
  omega

/-- Bridge between the `Option` and `Nat.cast` views of a finite
`ℕ∞` value. -/
theorem enat_some_coe (n : ℕ) : (Option.some n : ℕ∞) = (n : ℕ∞) := by
  norm_cast

/-- The relaxation test, spelled out. -/
theorem improves_iff (m : DistMap) (ny nx : Int) (cand : ℕ∞) :
    improves m ny nx cand = true ↔
      ∃ w, mget m ny nx = some w ∧ cand < w := by
  unfold improves
  match h : mget m ny nx with
  | some v => simp
  | Option.none => simp

/-- Full description of the direction loop of one relaxation iteration:
it runs without exception, appends a duplicate-free batch of newly
relaxed cells to the queue, rewrites exactly those cells to
`cur + 1`, and leaves every processed non-Wall in-bounds neighbour with
a value at most `cur + 1`. -/
theorem relaxDirs_spec (hgh : grid.length = height)
    (hgw : ∀ row ∈ grid, row.length = width) (p₀ : Point) (cur : ℕ∞) :
    ∀ ds : List (Int × Int), ds.Pairwise (fun d1 d2 => d1 ≠ d2) →
    ∀ (m : DistMap) (q : List Point), MapRect width height m →
    ∃ (m' : DistMap) (news : List Point),
      relaxDirs grid width height p₀ cur ds m q = some (m', q ++ news) ∧
      MapRect width height m' ∧
      news.Nodup ∧
      (∀ p ∈ news, InB width height p ∧
        (∃ d ∈ ds, p = ⟨p₀.x + d.1, p₀.y + d.2⟩) ∧
        (∃ c, cellAt grid p = some c ∧ c.type ≠ CellType.wall) ∧
        (∃ w, mval m p = some w ∧ cur + 1 < w)) ∧
      (∀ p ∈ news, mval m' p = some (cur + 1)) ∧
      (∀ p, p ∉ news → mval m' p = mval m p) ∧
      ((∀ p ∈ news, mval m p = some ⊤) →
        topCount m' + news.length = topCount m) ∧
      (∀ d ∈ ds, ∀ c : GridCell,
        InB width height ⟨p₀.x + d.1, p₀.y + d.2⟩ →
        cellAt grid ⟨p₀.x + d.1, p₀.y + d.2⟩ = some c →
        c.type ≠ CellType.wall →
        ∃ w, mval m' ⟨p₀.x + d.1, p₀.y + d.2⟩ = some w ∧ w ≤ cur + 1) := by
  intro ds
  induction ds with
  | nil =>
    intro hdist m q hm
    refine ⟨m, [], ?_, hm, List.nodup_nil, ?_, ?_, ?_, ?_, ?_⟩
    · simp [relaxDirs]
    · simp
    · simp
    · intro p hp
      rfl
    · intro h
      simp
    · simp
  | cons d ds ih =>
    intro hdist m q hm
    have hdd : ∀ d' ∈ ds, d ≠ d' := (List.pairwise_cons.mp hdist).1
    have hdist' : ds.Pairwise (fun d1 d2 => d1 ≠ d2) :=
      (List.pairwise_cons.mp hdist).2
    set np : Point := ⟨p₀.x + d.1, p₀.y + d.2⟩ with hnp
    have hnp_ne : ∀ d' ∈ ds, (⟨p₀.x + d'.1, p₀.y + d'.2⟩ : Point) ≠ np := by
      intro d' hd' habs
      apply hdd d' hd'
      have hx : p₀.x + d'.1 = p₀.x + d.1 := congrArg Point.x habs
      have hy : p₀.y + d'.2 = p₀.y + d.2 := congrArg Point.y habs
      have h1 : d'.1 = d.1 := by omega
      have h2 : d'.2 = d.2 := by omega
      cases d; cases d'
      simp_all
    by_cases hin : 0 ≤ p₀.x + d.1 ∧ p₀.x + d.1 < (width : Int) ∧
        0 ≤ p₀.y + d.2 ∧ p₀.y + d.2 < (height : Int)
    · have hinB : InB width height np := hin
      obtain ⟨c, hc⟩ := cellAt_of_inB grid width height hgh hgw np hinB
      by_cases hcond : c.type ≠ CellType.wall ∧
          improves m (p₀.y + d.2) (p₀.x + d.1) (cur + 1) = true
      · -- relaxed: write `cur + 1` at `np`, enqueue it, recurse
        have heval : relaxDirs grid width height p₀ cur (d :: ds) m q =
            relaxDirs grid width height p₀ cur ds
              (mset m (p₀.y + d.2).toNat (p₀.x + d.1).toNat (cur + 1))
              (q ++ [np]) := by
          simp only [relaxDirs, hc]
          rw [if_pos hin, if_pos hcond]
        have hm₁ : MapRect width height
            (mset m (p₀.y + d.2).toNat (p₀.x + d.1).toNat (cur + 1)) :=
          mapRect_mset width height m hm _ _ _
        obtain ⟨m', news₁, hrun, hm', hnd₁, hprops₁, hset₁, hunch₁, htops₁, hstab₁⟩ :=
          ih hdist' (mset m (p₀.y + d.2).toNat (p₀.x + d.1).toNat (cur + 1))
            (q ++ [np]) hm₁
        have hnpset : mval (mset m (p₀.y + d.2).toNat (p₀.x + d.1).toNat
            (cur + 1)) np = some (cur + 1) := by
          have := mval_mset_self width height m hm np hinB (cur + 1)
          simpa [hnp] using this
        have hnp_notin₁ : np ∉ news₁ := by
          intro habs
          obtain ⟨-, ⟨d', hd', heq⟩, -, -⟩ := hprops₁ np habs
          exact hnp_ne d' hd' heq.symm
        have hother : ∀ p : Point, p ≠ np →
            mval (mset m (p₀.y + d.2).toNat (p₀.x + d.1).toNat (cur + 1)) p =
              mval m p := by
          intro p hpne
          have := mval_mset_other width height m np hinB p hpne (cur + 1)
          simpa [hnp] using this
        refine ⟨m', np :: news₁, ?_, hm', ?_, ?_, ?_, ?_, ?_, ?_⟩
        · rw [heval, hrun]
          simp
        · exact List.nodup_cons.mpr ⟨hnp_notin₁, hnd₁⟩
        · intro p hp
          rcases List.mem_cons.mp hp with rfl | hp₁
          · obtain ⟨hw, himp⟩ := (improves_iff m _ _ _).mp hcond.2
            exact ⟨hinB, ⟨d, by simp, rfl⟩, ⟨c, hc, hcond.1⟩,
              hw, himp.1, himp.2⟩
          · obtain ⟨hpin, ⟨d', hd', hpd⟩, hnw, w, hw, hlt⟩ := hprops₁ p hp₁
            have hpne : p ≠ np := by
              rw [hpd]
              exact hnp_ne d' hd'
            refine ⟨hpin, ⟨d', by simp [hd'], hpd⟩, hnw, w, ?_, hlt⟩
            rw [← hother p hpne]
            exact hw
        · intro p hp
          rcases List.mem_cons.mp hp with rfl | hp₁
          · rw [hunch₁ np hnp_notin₁, hnpset]
          · exact hset₁ p hp₁
        · intro p hp
          have hpne : p ≠ np := fun habs => hp (habs ▸ List.mem_cons_self np news₁)
          have hp₁ : p ∉ news₁ := fun habs => hp (List.mem_cons_of_mem np habs)
          rw [hunch₁ p hp₁, hother p hpne]
        · intro htop
          have hnptop : mval m np = some ⊤ := htop np (List.mem_cons_self np news₁)
          have hcand_ne : cur + 1 ≠ ⊤ := by
            obtain ⟨w, -, hlt⟩ := (improves_iff m _ _ _).mp hcond.2
            exact ne_top_of_lt hlt
          have hdec : topCount (mset m (p₀.y + d.2).toNat (p₀.x + d.1).toNat
              (cur + 1)) + 1 = topCount m := by
            have := topCount_mset width height m hm np hinB (cur + 1) hcand_ne
              (by simpa [hnp] using hnptop)
            simpa [hnp] using this
          have htops₁' : ∀ p ∈ news₁, mval (mset m (p₀.y + d.2).toNat
              (p₀.x + d.1).toNat (cur + 1)) p = some ⊤ := by
            intro p hp₁
            have hpne : p ≠ np := by
              obtain ⟨-, ⟨d', hd', heqp⟩, -, -⟩ := hprops₁ p hp₁
              rw [heqp]
              exact hnp_ne d' hd'
            rw [hother p hpne]
            exact htop p (List.mem_cons_of_mem np hp₁)
          have h1 := htops₁ htops₁'
          simp only [List.length_cons]
          omega
        · intro d' hd' c' hin' hc' hnw'
          rcases List.mem_cons.mp hd' with rfl | hd'₁
          · refine ⟨cur + 1, ?_, le_refl _⟩
            rw [hunch₁ np hnp_notin₁, hnpset]
          · exact hstab₁ d' hd'₁ c' hin' hc' hnw'
      · -- not relaxed: recurse with the same state
        have heval : relaxDirs grid width height p₀ cur (d :: ds) m q =
            relaxDirs grid width height p₀ cur ds m q := by
          simp only [relaxDirs, hc]
          rw [if_pos hin, if_neg hcond]
        obtain ⟨m', news, hrun, hm', hnd, hprops, hset, hunch, htops, hstab⟩ :=
          ih hdist' m q hm
        have hnp_notin : np ∉ news := by
          intro habs
          obtain ⟨-, ⟨d', hd', heq⟩, -, -⟩ := hprops np habs
          exact hnp_ne d' hd' heq.symm
        refine ⟨m', news, by rw [heval, hrun], hm', hnd, ?_, hset, hunch, htops, ?_⟩
        · intro p hp
          obtain ⟨hpin, ⟨d', hd', hpd⟩, hnw, hv⟩ := hprops p hp
          exact ⟨hpin, ⟨d', by simp [hd'], hpd⟩, hnw, hv⟩
        · intro d' hd' c' hin' hc' hnw'
          rcases List.mem_cons.mp hd' with rfl | hd'₁
          · -- the unimproved neighbour already holds a small value
            rw [hc] at hc'
            cases hc'
            have himp_false :
                improves m (p₀.y + d'.2) (p₀.x + d'.1) (cur + 1) = false := by
              rcases Bool.eq_false_or_eq_true
                  (improves m (p₀.y + d'.2) (p₀.x + d'.1) (cur + 1)) with h | h
              · exact absurd ⟨hnw', h⟩ hcond
              · exact h
            obtain ⟨w, hw⟩ := mval_some_of_inB width height m hm _ hin'
            have hwle : w ≤ cur + 1 := by
              by_contra hgt
              have hex : ∃ w', mget m (p₀.y + d'.2) (p₀.x + d'.1) = some w' ∧
                  cur + 1 < w' := ⟨w, hw, lt_of_not_le hgt⟩
              rw [(improves_iff m _ _ _).mpr hex] at himp_false
              exact Bool.true_eq_false.mp himp_false
            refine ⟨w, ?_, hwle⟩
            rw [hunch _ hnp_notin]
            exact hw
          · exact hstab d' hd'₁ c' hin' hc' hnw'
    · -- out of bounds: recurse with the same state
      have heval : relaxDirs grid width height p₀ cur (d :: ds) m q =
          relaxDirs grid width height p₀ cur ds m q := by
        simp only [relaxDirs]
        rw [if_neg hin]
      obtain ⟨m', news, hrun, hm', hnd, hprops, hset, hunch, htops, hstab⟩ :=
        ih hdist' m q hm
      refine ⟨m', news, by rw [heval, hrun], hm', hnd, ?_, hset, hunch, htops, ?_⟩
      · intro p hp
        obtain ⟨hpin, ⟨d', hd', hpd⟩, hnw, hv⟩ := hprops p hp
        exact ⟨hpin, ⟨d', by simp [hd'], hpd⟩, hnw, hv⟩
      · intro d' hd' c' hin' hc' hnw'
        rcases List.mem_cons.mp hd' with rfl | hd'₁
        · exact absurd hin' hin
        · exact hstab d' hd'₁ c' hin' hc' hnw'

/-- One iteration of the relaxation loop: the invariant is preserved and
the fuel potential strictly decreases. -/
theorem dinv_step (hgh : grid.length = height)
    (hgw : ∀ row ∈ grid, row.length = width) (m : DistMap) (p₀ : Point)
    (rest : List Point) (hinv : DInv grid width height m (p₀ :: rest)) :
    ∃ m' news,
      relaxDirs grid width height p₀ ((mval m p₀).getD ⊤) dirs2 m rest =
        some (m', rest ++ news) ∧
      DInv grid width height m' (rest ++ news) ∧
      (rest ++ news).length + 2 * topCount m' + 1 ≤
        (p₀ :: rest).length + 2 * topCount m := by
  obtain ⟨D, q1, q2, heq, hv1, hv2⟩ := hinv.shape
  have hsplit : ∃ (D₀ : ℕ) (r1 r2 : List Point),
      mval m p₀ = some (D₀ : ℕ∞) ∧ rest = r1 ++ r2 ∧
      (∀ p ∈ r1, mval m p = some (D₀ : ℕ∞)) ∧
      (∀ p ∈ r2, mval m p = some ((D₀ + 1 : ℕ) : ℕ∞)) := by
    cases q1 with
    | nil =>
      simp only [List.nil_append] at heq
      refine ⟨D + 1, rest, [], ?_, (List.append_nil rest).symm, ?_, ?_⟩
      · exact hv2 p₀ (heq ▸ List.mem_cons_self p₀ rest)
      · intro p hp
        exact hv2 p (heq ▸ List.mem_cons_of_mem p₀ hp)
      · intro p hp
        simp at hp
    | cons a q1' =>
      rw [List.cons_append] at heq
      injection heq with h1 h2
      subst h1
      subst h2
      refine ⟨D, q1', q2, hv1 p₀ (List.mem_cons_self p₀ q1'), rfl, ?_, hv2⟩
      intro p hp
      exact hv1 p (List.mem_cons_of_mem p₀ hp)
  obtain ⟨D₀, r1, r2, hp₀val, hrest, hr1, hr2⟩ := hsplit
  have hp₀in : InB width height p₀ := hinv.qin p₀ (List.mem_cons_self p₀ rest)
  -- every finite recorded value is at most `D₀ + 1`
  have hfinle : ∀ p, InB width height p → ∀ n : ℕ,
      mval m p = some (n : ℕ∞) → n ≤ D₀ + 1 := by
    intro p hpin n hpn
    by_cases hpq : p ∈ p₀ :: rest
    · rcases List.mem_cons.mp hpq with rfl | hprest
      · rw [hp₀val] at hpn
        have : (D₀ : ℕ∞) = (n : ℕ∞) := Option.some.inj hpn
        have : D₀ = n := by exact_mod_cast this
        omega
      · rw [hrest] at hprest
        rcases List.mem_append.mp hprest with h1 | h2
        · rw [hr1 p h1] at hpn
          have : D₀ = n := by exact_mod_cast Option.some.inj hpn
          omega
        · rw [hr2 p h2] at hpn
          have : D₀ + 1 = n := by exact_mod_cast Option.some.inj hpn
          omega
    · have := hinv.settled_le p₀ rfl D₀ hp₀val p hpin hpq n hpn
      omega
  rw [hp₀val]
  simp only [Option.getD_some]
  obtain ⟨m', news, hrun, hm', hnd, hprops, hset, hunch, htops, hstab⟩ :=
    relaxDirs_spec grid width height hgh hgw p₀ (D₀ : ℕ∞) dirs2 (by decide)
      m rest hinv.rect
  -- newly relaxed cells were at `Infinity`
  have hnews_top : ∀ p ∈ news, mval m p = some ⊤ := by
    intro p hp
    obtain ⟨hpin, -, -, w, hw, hlt⟩ := hprops p hp
    rcases w with - | n
    · exact hw
    · exfalso
      rw [enat_some_coe] at hw hlt
      have hn : D₀ + 1 < n := by exact_mod_cast hlt
      have hle := hfinle p hpin n hw
      omega
  have htopdec := htops hnews_top
  -- queue members are finite, hence never among the news
  have hnotnews : ∀ p, (∃ k : ℕ, mval m p = some (k : ℕ∞)) → p ∉ news := by
    rintro p ⟨k, hk⟩ habs
    rw [hnews_top p habs] at hk
    have := Option.some.inj hk
    simp at this
  have hcast1 : ((D₀ : ℕ∞) + 1) = ((D₀ + 1 : ℕ) : ℕ∞) := by
    push_cast
    rfl
  refine ⟨m', news, hrun, ?_, ?_⟩
  · refine ⟨hm', ?_, ?_, ?_, ?_, ?_, ?_⟩
    · -- membership
      intro p hp
      rcases List.mem_append.mp hp with h | h
      · exact hinv.qin p (List.mem_cons_of_mem p₀ h)
      · exact (hprops p h).1
    · -- shape
      refine ⟨D₀, r1, r2 ++ news, by rw [hrest, List.append_assoc], ?_, ?_⟩
      · intro p hp
        rw [hunch p (hnotnews p ⟨D₀, hr1 p hp⟩)]
        exact hr1 p hp
      · intro p hp
        rcases List.mem_append.mp hp with h | h
        · rw [hunch p (hnotnews p ⟨D₀ + 1, hr2 p h⟩)]
          exact hr2 p h
        · rw [hset p h, hcast1]
    · -- settled cells stay below the front
      intro f hf Df hfval p hpin hpnq n hpn
      have hpnotnews : p ∉ news := fun h =>
        hpnq (List.mem_append.mpr (Or.inr h))
      have hpnotrest : p ∉ rest := fun h =>
        hpnq (List.mem_append.mpr (Or.inl h))
      have hpm : mval m p = some (n : ℕ∞) := by
        rw [← hunch p hpnotnews]
        exact hpn
      have hfmem : f ∈ rest ++ news :=
        List.mem_of_mem_head? (hf ▸ rfl)
      have hDf : D₀ ≤ Df := by
        rcases List.mem_append.mp hfmem with h | h
        · rw [hrest] at h
          rcases List.mem_append.mp h with h1 | h2
          · have hfv := hr1 f h1
            rw [hunch f (hnotnews f ⟨D₀, hfv⟩), hfv] at hfval
            have : D₀ = Df := by exact_mod_cast Option.some.inj hfval
            omega
          · have hfv := hr2 f h2
            rw [hunch f (hnotnews f ⟨D₀ + 1, hfv⟩), hfv] at hfval
            have : D₀ + 1 = Df := by exact_mod_cast Option.some.inj hfval
            omega
        · rw [hset f h, hcast1] at hfval
          have : D₀ + 1 = Df := by exact_mod_cast Option.some.inj hfval
          omega
      by_cases hpp : p = p₀
      · subst hpp
        rw [hp₀val] at hpm
        have : D₀ = n := by exact_mod_cast Option.some.inj hpm
        omega
      · have hnotq : p ∉ p₀ :: rest := by
          intro h
          rcases List.mem_cons.mp h with h | h
          · exact hpp h
          · exact hpnotrest h
        have := hinv.settled_le p₀ rfl D₀ hp₀val p hpin hnotq n hpm
        omega
    · -- soundness of recorded values
      intro p hpin n hpn
      by_cases hp : p ∈ news
      · have hval := hset p hp
        rw [hval, hcast1] at hpn
        have hn : D₀ + 1 = n := by exact_mod_cast Option.some.inj hpn
        obtain ⟨hpin', ⟨d, hd, hpd⟩, ⟨c, hc, hnw⟩, -⟩ := hprops p hp
        have hreach₀ := hinv.sound p₀ hp₀in D₀ hp₀val
        have hstep : MallStep grid width height p₀ p :=
          ⟨hpin', ⟨d, hd, hpd⟩, c, hc, hnw⟩
        have := mallReach_step grid width height p₀ p D₀ hreach₀ hstep
        rw [← hn]
        exact this
      · rw [hunch p hp] at hpn
        exact hinv.sound p hpin n hpn
    · -- stability of settled cells
      intro p hpin hpnq n hpn p' hstep
      have hpnotnews : p ∉ news := fun h =>
        hpnq (List.mem_append.mpr (Or.inr h))
      have hpm : mval m p = some (n : ℕ∞) := by
        rw [← hunch p hpnotnews]
        exact hpn
      by_cases hpp : p = p₀
      · subst hpp
        have hn : D₀ = n := by
          rw [hp₀val] at hpm
          exact_mod_cast Option.some.inj hpm
        obtain ⟨hin', ⟨d, hd, hpd⟩, c, hc, hnw⟩ := hstep
        subst hpd
        obtain ⟨w, hw, hwle⟩ := hstab d hd c hin' hc hnw
        rw [hcast1] at hwle
        rcases w with - | k
        · exfalso
          have h2 : (⊤ : ℕ∞) ≤ ((D₀ + 1 : ℕ) : ℕ∞) := hwle
          exact WithTop.coe_ne_top (top_le_iff.mp h2)
        · rw [enat_some_coe] at hw hwle
          refine ⟨k, hw, ?_⟩
          have : k ≤ D₀ + 1 := by exact_mod_cast hwle
          omega
      · have hnotq : p ∉ p₀ :: rest := by
          intro h
          rcases List.mem_cons.mp h with h | h
          · exact hpp h
          · exact hpnq (List.mem_append.mpr (Or.inl h))
        obtain ⟨n', hn', hle⟩ := hinv.stable p hpin hnotq n hpm p' hstep
        have hp'notnews : p' ∉ news := hnotnews p' ⟨n', hn'⟩
        refine ⟨n', ?_, hle⟩
        rw [hunch p' hp'notnews]
        exact hn'
    · -- Destination cells keep distance 0
      intro p hpin hmall
      have h0 := hinv.mall0 p hpin hmall
      have hpnot : p ∉ news := hnotnews p ⟨0, by exact_mod_cast h0⟩
      rw [hunch p hpnot]
      exact h0
  · -- fuel potential decreases
    rw [List.length_append]
    simp only [List.length_cons]
    omega

/-- The relaxation loop terminates within the potential and preserves the
invariant to an empty queue. -/
theorem bfsLoop_correct (hgh : grid.length = height)
    (hgw : ∀ row ∈ grid, row.length = width) :
    ∀ (fuel : Nat) (m : DistMap) (q : List Point),
      DInv grid width height m q → q.length + 2 * topCount m ≤ fuel →
      ∃ m', bfsLoop grid width height fuel m q = some m' ∧
        DInv grid width height m' [] := by
  intro fuel
  induction fuel with
  | zero =>
    intro m q hinv hfuel
    have hq : q = [] := by
      cases q with
      | nil => rfl
      | cons a l => simp only [List.length_cons] at hfuel; omega
    subst hq
    exact ⟨m, rfl, hinv⟩
  | succ f ih =>
    intro m q hinv hfuel
    match q with
    | [] => exact ⟨m, rfl, hinv⟩
    | p₀ :: rest =>
      obtain ⟨m', news, hrun, hinv', hdec⟩ :=
        dinv_step grid width height hgh hgw m p₀ rest hinv
      have heval : bfsLoop grid width height (f + 1) m (p₀ :: rest) =
          bfsLoop grid width height f m' (rest ++ news) := by
        simp only [bfsLoop]
        unfold mval at hrun
        rw [hrun]
      obtain ⟨m'', hrun'', hinv''⟩ := ih m' (rest ++ news) hinv' (by
        simp only [List.length_cons] at hdec hfuel
        omega)
      exact ⟨m'', heval ▸ hrun'', hinv''⟩

/-- The seeded initial state satisfies the invariant. -/
theorem dinv_init (hgh : grid.length = height)
    (hgw : ∀ row ∈ grid, row.length = width) :
    DInv grid width height
      ((mallSeeds grid).foldl (fun m p => mset m p.y.toNat p.x.toNat 0)
        (List.replicate height (List.replicate width ⊤)))
      (mallSeeds grid) := by
  have hseedsin : ∀ s ∈ mallSeeds grid, InB width height s := fun s hs =>
    (mallSeeds_sound grid width height hgh hgw s hs).1
  have hrect : MapRect width height
      ((mallSeeds grid).foldl (fun m p => mset m p.y.toNat p.x.toNat 0)
        (List.replicate height (List.replicate width ⊤))) := by
    have : ∀ (l : List Point) (m : DistMap), MapRect width height m →
        MapRect width height
          (l.foldl (fun m p => mset m p.y.toNat p.x.toNat 0) m) := by
      intro l
      induction l with
      | nil => intro m hm; exact hm
      | cons s rest ih =>
        intro m hm
        exact ih _ (mapRect_mset width height m hm _ _ _)
    exact this _ _ (mapRect_init width height)
  have hval : ∀ p : Point, InB width height p →
      mval ((mallSeeds grid).foldl (fun m p => mset m p.y.toNat p.x.toNat 0)
        (List.replicate height (List.replicate width ⊤))) p =
      if p ∈ mallSeeds grid then some (0 : ℕ∞) else some (⊤ : ℕ∞) := by
    intro p hp
    rw [mval_seedFold width height (mallSeeds grid) _ (mapRect_init width height)
      hseedsin p]
    by_cases hmem : p ∈ mallSeeds grid
    · rw [if_pos hmem, if_pos hmem]
    · rw [if_neg hmem, if_neg hmem, mval_init width height p hp]
  refine ⟨hrect, hseedsin, ?_, ?_, ?_, ?_, ?_⟩
  · -- shape
    refine ⟨0, mallSeeds grid, [], (List.append_nil _).symm, ?_, ?_⟩
    · intro p hp
      rw [hval p (hseedsin p hp), if_pos hp]
      norm_cast
    · intro p hp
      simp at hp
  · -- settled
    intro f hf Df hfval p hpin hpq n hpn
    rw [hval p hpin, if_neg hpq] at hpn
    exfalso
    have := Option.some.inj hpn
    simp at this
  · -- sound
    intro p hpin n hpn
    rw [hval p hpin] at hpn
    by_cases hmem : p ∈ mallSeeds grid
    · rw [if_pos hmem] at hpn
      have h0 : (0 : ℕ) = n := by exact_mod_cast Option.some.inj hpn
      obtain ⟨-, c, hc, hmall⟩ := mallSeeds_sound grid width height hgh hgw p hmem
      refine ⟨[p], ⟨⟨p, rfl, hpin, c, hc, hmall⟩, List.chain'_singleton p⟩, rfl, ?_⟩
      simp only [List.length_singleton]
      omega
    · rw [if_neg hmem] at hpn
      exfalso
      have := Option.some.inj hpn
      simp at this
  · -- stable
    intro p hpin hpq n hpn p' hstep
    rw [hval p hpin, if_neg hpq] at hpn
    exfalso
    have := Option.some.inj hpn
    simp at this
  · -- mall0
    intro p hpin hmall
    obtain ⟨c, hc, hcm⟩ := hmall
    have hmem : p ∈ mallSeeds grid :=
      mallSeeds_complete grid p ⟨hpin.1, hpin.2.2.1⟩ c hc hcm
    rw [hval p hpin, if_pos hmem]

/-- Bound on the number of `Infinity` entries of a rectangular field. -/
theorem topCount_le (m : DistMap) (hm : MapRect width height m) :
    topCount m ≤ height * width := by
  unfold topCount
  calc (m.map fun row => (row.filter fun v => v = ⊤).length).sum
      ≤ (m.map fun row => (row.filter fun v => v = ⊤).length).length * width := by
        apply List.sum_le_card_nsmul
        intro x hx
        rw [List.mem_map] at hx
        obtain ⟨row, hrow, hxe⟩ := hx
        rw [← hxe, ← hm.2 row hrow]
        exact List.length_filter_le _ row
    _ = height * width := by rw [List.length_map, hm.1]

/-- Bound on the number of Mall seeds of a rectangular grid. -/
theorem mallSeeds_length_le (hgh : grid.length = height)
    (hgw : ∀ row ∈ grid, row.length = width) :
    (mallSeeds grid).length ≤ height * width := by
  unfold mallSeeds
  rw [List.length_flatMap]
  calc (grid.enum.map fun yrow => (yrow.2.enum.filterMap fun xcell =>
        if xcell.2.type = CellType.mall then
          some (⟨(xcell.1 : Int), (yrow.1 : Int)⟩ : Point)
        else Option.none).length).sum
      ≤ (grid.enum.map fun yrow => (yrow.2.enum.filterMap fun xcell =>
          if xcell.2.type = CellType.mall then
            some (⟨(xcell.1 : Int), (yrow.1 : Int)⟩ : Point)
          else Option.none).length).length * width := by
        apply List.sum_le_card_nsmul
        intro x hx
        rw [List.mem_map] at hx
        obtain ⟨yrow, hrow, hxe⟩ := hx
        have hmem : yrow.2 ∈ grid :=
          List.getElem?_mem (List.mem_enum_iff_getElem?.mp hrow)
        rw [← hxe]
        calc (yrow.2.enum.filterMap fun xcell =>
              if xcell.2.type = CellType.mall then
                some (⟨(xcell.1 : Int), (yrow.1 : Int)⟩ : Point)
              else Option.none).length
            ≤ yrow.2.enum.length := List.length_filterMap_le _ _
          _ = yrow.2.length := List.enum_length
          _ = width := hgw yrow.2 hmem
    _ = height * width := by
        rw [List.length_map, List.enum_length, hgh]

/-- Once the queue is empty, every cell reachable in `n` hops carries a
recorded value of at most `n`. -/
theorem dinv_final_complete (m : DistMap)
    (hinv : DInv grid width height m []) :
    ∀ (n : ℕ) (p : Point), MallReach grid width height p n →
      ∃ k : ℕ, mval m p = some (k : ℕ∞) ∧ k ≤ n := by
  intro n
  induction n with
  | zero =>
    intro p hreach
    obtain ⟨wk, ⟨⟨p0, hhead, hp0in, hp0c⟩, hchain⟩, hlast, hlen⟩ := hreach
    have hp0p : p0 = p := by
      match wk, hlen with
      | [q], _ =>
        simp only [List.head?_cons, Option.some.injEq] at hhead
        simp only [List.getLast?_singleton, Option.some.injEq] at hlast
        rw [← hhead, hlast]
    subst hp0p
    exact ⟨0, hinv.mall0 p0 hp0in hp0c, le_refl 0⟩
  | succ n ih =>
    intro p hreach
    obtain ⟨u, hu, hstep⟩ := mallReach_succ grid width height p n hreach
    obtain ⟨k, hk, hkle⟩ := ih u hu
    have huin := mallReach_inB grid width height u n hu
    obtain ⟨k', hk', hk'le⟩ :=
      hinv.stable u huin (List.not_mem_nil u) k hk p hstep
    exact ⟨k', hk', by omega⟩

/-- The distance-field builder terminates within its fuel and its result
satisfies the empty-queue invariant. -/
theorem generateMallDistanceMap_dinv (hgh : grid.length = height)
    (hgw : ∀ row ∈ grid, row.length = width)
    (hw : (grid.head?.map List.length).getD 0 = width) :
    ∃ m, generateMallDistanceMap grid = some m ∧
      DInv grid width height m [] := by
  have hinit := dinv_init grid width height hgh hgw
  have hfuel : (mallSeeds grid).length +
      2 * topCount ((mallSeeds grid).foldl
        (fun m p => mset m p.y.toNat p.x.toNat 0)
        (List.replicate height (List.replicate width ⊤))) ≤
      3 * height * width + 1 := by
    have h1 := mallSeeds_length_le grid width height hgh hgw
    have h2 := topCount_le width height _ hinit.rect
    obtain ⟨A, hA⟩ : ∃ A, height * width = A := ⟨_, rfl⟩
    have h3 : 3 * height * width = 3 * A := by rw [mul_assoc, hA]
    rw [hA] at h1 h2
    omega
  obtain ⟨m, hrun, hinv⟩ :=
    bfsLoop_correct grid width height hgh hgw _ _ _ hinit hfuel
  refine ⟨m, ?_, hinv⟩
  simp only [generateMallDistanceMap]
  rw [hgh, hw]
  exact hrun

end DistanceField

/-- C2: for every rectangular grid, `generateMallDistanceMap` succeeds and
its field records, at every in-bounds cell, exactly the infimum of the
hop counts of Wall-avoiding orthogonal walks from Destination (Mall)
cells (`⊤` = `Infinity` when none exists, since the infimum of the empty
set of extended naturals is `⊤`); every Mall cell records `0`, and a grid
with no Mall cell yields an all-`Infinity` field. -/
theorem claim_C2_distance_field (grid : Grid) (width height : Nat)
    (hgh : grid.length = height)
    (hgw : ∀ row ∈ grid, row.length = width)
    (hw : (grid.head?.map List.length).getD 0 = width) :
    ∃ m, generateMallDistanceMap grid = some m ∧ MapRect width height m ∧
      (∀ p, InB width height p →
        mval m p = some (sInf {v : ℕ∞ | ∃ n : ℕ, v = (n : ℕ∞) ∧
          MallReach grid width height p n})) ∧
      (∀ p, InB width height p →
        (∃ c, cellAt grid p = some c ∧ c.type = CellType.mall) →
        mval m p = some (0 : ℕ∞)) ∧
      ((∀ p c, cellAt grid p = some c → c.type ≠ CellType.mall) →
        ∀ p, InB width height p → mval m p = some (⊤ : ℕ∞)) := by
  obtain ⟨m, hrun, hinv⟩ :=
    generateMallDistanceMap_dinv grid width height hgh hgw hw
  refine ⟨m, hrun, hinv.rect, ?_, hinv.mall0, ?_⟩
  · intro p hpin
    obtain ⟨v, hv⟩ := mval_some_of_inB width height m hinv.rect p hpin
    rw [hv]
    congr 1
    apply le_antisymm
    · -- every walk's hop count bounds the recorded value
      apply le_sInf
      rintro b ⟨k, rfl, hreach⟩
      obtain ⟨k', hk', hk'le⟩ :=
        dinv_final_complete grid width height m hinv k p hreach
      rw [hv] at hk'
      have : v = (k' : ℕ∞) := Option.some.inj hk'
      rw [this]
      exact_mod_cast hk'le
    · -- the recorded value is attained, hence bounds the infimum
      match v, hv with
      | ⊤, _ => exact le_top
      | (n : ℕ), hv =>
        exact sInf_le ⟨n, rfl, hinv.sound p hpin n hv⟩
  · intro hnomall p hpin
    obtain ⟨v, hv⟩ := mval_some_of_inB width height m hinv.rect p hpin
    match v, hv with
    | ⊤, hv => exact hv
    | (n : ℕ), hv =>
      exfalso
      obtain ⟨wk, ⟨⟨p0, hhead, hp0in, hp0c⟩, hchain⟩, hlast, hlen⟩ :=
        hinv.sound p hpin n hv
      obtain ⟨c, hc, hcm⟩ := hp0c
      exact hnomall p0 c hc hcm

/-- Witness for C2 at the one-row fixture grid. -/
theorem claim_C2_witness :
    (gridA.length = 1 ∧ (∀ row ∈ gridA, row.length = 4) ∧
      (gridA.head?.map List.length).getD 0 = 4) ∧
    (∃ m, generateMallDistanceMap gridA = some m ∧ MapRect 4 1 m ∧
      (∀ p, InB 4 1 p →
        mval m p = some (sInf {v : ℕ∞ | ∃ n : ℕ, v = (n : ℕ∞) ∧
          MallReach gridA 4 1 p n})) ∧
      (∀ p, InB 4 1 p →
        (∃ c, cellAt gridA p = some c ∧ c.type = CellType.mall) →
        mval m p = some (0 : ℕ∞)) ∧
      ((∀ p c, cellAt gridA p = some c → c.type ≠ CellType.mall) →
        ∀ p, InB 4 1 p → mval m p = some (⊤ : ℕ∞))) :=
  ⟨⟨rfl, by decide, rfl⟩,
    claim_C2_distance_field gridA 4 1 rfl (by decide) rfl⟩

section RouteFinder

variable (grid : Grid) (width height : Nat) (strictMode : Bool)
variable (target start : Point)

/-- A candidate move that passes every check of the direction loop passed
the bounds check in particular. -/
theorem moveOkBounded_true_inB (pos : Point) (c : GridCell) (d : Dir)
    (h : moveOkBounded grid width height strictMode target pos c d = some true) :
    InB width height (pmove pos d) := by
  unfold moveOkBounded at h
  by_cases hb : 0 ≤ pos.x + d.dx ∧ pos.x + d.dx < (width : Int) ∧
      0 ≤ pos.y + d.dy ∧ pos.y + d.dy < (height : Int)
  · exact hb
  · rw [if_neg hb] at h
    simp at h

/-- The flow-as-law dispatch of the direction loop, written as nested
conditionals. -/
theorem moveOk_eq (pos : Point) (c : GridCell) (d : Dir) :
    moveOk grid width height strictMode target pos c d =
      if c.type = CellType.path ∧ c.hasFlow = true then
        (if c.rotation ≠ d.deg then some false
         else moveOkBounded grid width height strictMode target pos c d)
      else moveOkBounded grid width height strictMode target pos c d := by
  unfold moveOk
  by_cases hflow : c.type = CellType.path ∧ c.hasFlow = true
  · simp only [if_pos hflow]
  · simp only [if_neg hflow]

/-- A passing move verdict comes from `moveOkBounded` in both branches of
the flow-as-law test. -/
theorem moveOk_true_bounded (pos : Point) (c : GridCell) (d : Dir)
    (h : moveOk grid width height strictMode target pos c d = some true) :
    moveOkBounded grid width height strictMode target pos c d = some true := by
  rw [moveOk_eq] at h
  by_cases hflow : c.type = CellType.path ∧ c.hasFlow = true
  · rw [if_pos hflow] at h
    by_cases hdeg : c.rotation ≠ d.deg
    · rw [if_pos hdeg] at h
      simp at h
    · rw [if_neg hdeg] at h
      exact h
  · rw [if_neg hflow] at h
    exact h

/-- A passing candidate move lands in bounds. -/
theorem moveOk_true_inB (pos : Point) (c : GridCell) (d : Dir)
    (h : moveOk grid width height strictMode target pos c d = some true) :
    InB width height (pmove pos d) :=
  moveOkBounded_true_inB grid width height strictMode target pos c d
    (moveOk_true_bounded grid width height strictMode target pos c d h)

/-- On a rectangular grid the direction loop never raises: the
destination cell read happens only after the bounds check. -/
theorem moveOk_ne_none (hgh : grid.length = height)
    (hgw : ∀ row ∈ grid, row.length = width) (pos : Point) (c : GridCell)
    (d : Dir) :
    moveOk grid width height strictMode target pos c d ≠ Option.none := by
  have hbounded : moveOkBounded grid width height strictMode target pos c d ≠
      Option.none := by
    unfold moveOkBounded
    by_cases hb : 0 ≤ pos.x + d.dx ∧ pos.x + d.dx < (width : Int) ∧
        0 ≤ pos.y + d.dy ∧ pos.y + d.dy < (height : Int)
    · rw [if_pos hb]
      obtain ⟨nc, hnc⟩ := cellAt_of_inB grid width height hgh hgw
        ⟨pos.x + d.dx, pos.y + d.dy⟩ ⟨hb.1, hb.2.1, hb.2.2.1, hb.2.2.2⟩
      simp only [hnc]
      by_cases h1 : strictMode = true ∧ nc.type = CellType.path ∧
          nc.hasFlow = true ∧ (nc.rotation - d.deg).natAbs = 180
      · rw [if_pos h1]; simp
      · rw [if_neg h1]
        by_cases h2 : edgeSolid c.edges d.edge = true
        · rw [if_pos h2]; simp
        · rw [if_neg h2]
          by_cases h3 : edgeSolid nc.edges d.oppEdge = true
          · rw [if_pos h3]; simp
          · rw [if_neg h3]
            by_cases h4 : subMaskBlocked nc = true
            · rw [if_pos h4]; simp
            · rw [if_neg h4]; simp
    · rw [if_neg hb]; simp
  rw [moveOk_eq]
  by_cases hflow : c.type = CellType.path ∧ c.hasFlow = true
  · rw [if_pos hflow]
    by_cases hdeg : c.rotation ≠ d.deg
    · rw [if_pos hdeg]; simp
    · rw [if_neg hdeg]; exact hbounded
  · rw [if_neg hflow]; exact hbounded

/-- What a legal step provides: the current cell and a passing direction. -/
theorem legalStepB_elim (u v : Point)
    (h : legalStepB grid width height strictMode target u v = true) :
    ∃ cu, cellAt grid u = some cu ∧ ∃ d ∈ directions, v = pmove u d ∧
      moveOk grid width height strictMode target u cu d = some true := by
  unfold legalStepB at h
  match hcu : cellAt grid u with
  | Option.none => rw [hcu] at h; simp at h
  | some cu =>
    rw [hcu] at h
    rw [List.any_eq_true] at h
    obtain ⟨d, hd, hand⟩ := h
    rw [Bool.and_eq_true, decide_eq_true_eq, decide_eq_true_eq] at hand
    exact ⟨cu, rfl, d, hd, hand.1, hand.2⟩

/-- Converse: a passing direction gives a legal step. -/
theorem legalStepB_intro (u v : Point) (cu : GridCell)
    (hcu : cellAt grid u = some cu) (d : Dir) (hd : d ∈ directions)
    (hv : v = pmove u d)
    (hmo : moveOk grid width height strictMode target u cu d = some true) :
    legalStepB grid width height strictMode target u v = true := by
  unfold legalStepB
  rw [hcu, List.any_eq_true]
  refine ⟨d, hd, ?_⟩
  rw [Bool.and_eq_true, decide_eq_true_eq, decide_eq_true_eq]
  exact ⟨hv, hmo⟩

/-- The one-element route from a cell to itself is legal. -/
theorem routeTo_singleton :
    RouteTo grid width height strictMode target start start [start] :=
  ⟨by simp, rfl, rfl, List.chain'_singleton start⟩

/-- Route extension by one legal step. -/
theorem routeTo_snoc (p v : Point) (r : List Point)
    (hr : RouteTo grid width height strictMode target start p r)
    (hstep : legalStepB grid width height strictMode target p v = true) :
    RouteTo grid width height strictMode target start v (r ++ [v]) := by
  obtain ⟨hne, hhead, hlast, hchain⟩ := hr
  refine ⟨by simp, ?_, ?_, ?_⟩
  · rw [List.head?_append_of_ne_nil _ hne]
    exact hhead
  · rw [List.getLast?_concat]
  · rw [List.chain'_append]
    refine ⟨hchain, List.chain'_singleton v, ?_⟩
    intro x hx y hy
    rw [hlast] at hx
    cases hx
    simp only [List.head?_cons, Option.some.injEq] at hy
    cases hy
    exact hstep

/-- A one-element legal route goes nowhere. -/
theorem routeTo_one (u : Point) (r : List Point)
    (hr : RouteTo grid width height strictMode target start u r)
    (hlen : r.length = 1) : u = start := by
  obtain ⟨hne, hhead, hlast, hchain⟩ := hr
  match r, hlen with
  | [q], _ =>
    simp only [List.head?_cons, Option.some.injEq] at hhead
    simp only [List.getLast?_singleton, Option.some.injEq] at hlast
    rw [← hlast, ← hhead]

/-- Route decomposition: a longer legal route is a legal route followed
by one legal step. -/
theorem routeTo_succ (u : Point) (r : List Point) (n : ℕ)
    (hr : RouteTo grid width height strictMode target start u r)
    (hlen : r.length = n + 2) :
    ∃ u', RouteTo grid width height strictMode target start u' r.dropLast ∧
      legalStepB grid width height strictMode target u' u = true ∧
      r.dropLast.length = n + 1 := by
  obtain ⟨hne, hhead, hlast, hchain⟩ := hr
  have heq : r = r.dropLast ++ [r.getLast hne] :=
    (List.dropLast_append_getLast hne).symm
  have hlastp : r.getLast hne = u := by
    rw [List.getLast?_eq_getLast r hne] at hlast
    exact Option.some.inj hlast
  have hdlen : r.dropLast.length = n + 1 := by
    rw [List.length_dropLast, hlen]
    omega
  have hdne : r.dropLast ≠ [] := by
    intro habs
    rw [habs] at hdlen
    simp at hdlen
  rw [heq, List.chain'_append] at hchain
  obtain ⟨hchain', -, hconn⟩ := hchain
  obtain ⟨u', hu'⟩ : ∃ u', r.dropLast.getLast? = some u' :=
    Option.isSome_iff_exists.mp (List.getLast?_isSome.mpr hdne)
  have hstep := hconn u' hu' (r.getLast hne) (by simp)
  rw [hlastp] at hstep
  refine ⟨u', ⟨hdne, ?_, hu', hchain'⟩, hstep, hdlen⟩
  rw [heq, List.head?_append_of_ne_nil _ hdne] at hhead
  exact hhead

/-- A duplicate-free list of in-bounds points has at most `width * height`
elements. -/
theorem nodup_inB_length_le (V : List Point) (hnd : V.Nodup)
    (hin : ∀ u ∈ V, InB width height u) : V.length ≤ width * height := by
  classical
  have hmap : (V.map fun p => p.y.toNat * width + p.x.toNat).Nodup := by
    refine List.Nodup.map_on ?_ hnd
    intro p hp q hq hfe
    obtain ⟨hpx0, hpxw, hpy0, hpyh⟩ := hin p hp
    obtain ⟨hqx0, hqxw, hqy0, hqyh⟩ := hin q hq
    have hpxlt : p.x.toNat < width := by omega
    have hqxlt : q.x.toNat < width := by omega
    have hw0 : 0 < width := by omega
    have e1p : (p.y.toNat * width + p.x.toNat) % width = p.x.toNat := by
      rw [Nat.mul_comm p.y.toNat width, Nat.mul_add_mod]
      exact Nat.mod_eq_of_lt hpxlt
    have e1q : (q.y.toNat * width + q.x.toNat) % width = q.x.toNat := by
      rw [Nat.mul_comm q.y.toNat width, Nat.mul_add_mod]
      exact Nat.mod_eq_of_lt hqxlt
    have e2p : (p.y.toNat * width + p.x.toNat) / width = p.y.toNat := by
      rw [Nat.mul_comm p.y.toNat width, Nat.mul_add_div hw0,
        Nat.div_eq_of_lt hpxlt, Nat.add_zero]
    have e2q : (q.y.toNat * width + q.x.toNat) / width = q.y.toNat := by
      rw [Nat.mul_comm q.y.toNat width, Nat.mul_add_div hw0,
        Nat.div_eq_of_lt hqxlt, Nat.add_zero]
    have hx : p.x.toNat = q.x.toNat := by
      rw [← e1p, ← e1q, hfe]
    have hy : p.y.toNat = q.y.toNat := by
      rw [← e2p, ← e2q, hfe]
    have hpx : p.x = q.x := by omega
    have hpy : p.y = q.y := by omega
    cases p
    cases q
    simp_all
  have hsub : ∀ z ∈ (V.map fun p => p.y.toNat * width + p.x.toNat),
      z < width * height := by
    intro z hz
    rw [List.mem_map] at hz
    obtain ⟨p, hp, hze⟩ := hz
    obtain ⟨hpx0, hpxw, hpy0, hpyh⟩ := hin p hp
    have h1 : p.x.toNat < width := by omega
    have h2 : p.y.toNat < height := by omega
    subst hze
    calc p.y.toNat * width + p.x.toNat < p.y.toNat * width + width := by omega
      _ = (p.y.toNat + 1) * width := by ring
      _ ≤ height * width := Nat.mul_le_mul_right width (by omega)
      _ = width * height := Nat.mul_comm height width
  calc V.length = (V.map fun p => p.y.toNat * width + p.x.toNat).length :=
        (List.length_map _ _).symm
    _ = (V.map fun p => p.y.toNat * width + p.x.toNat).toFinset.card :=
        (List.toFinset_card_of_nodup hmap).symm
    _ ≤ (Finset.range (width * height)).card := by
        apply Finset.card_le_card
        intro z hz
        rw [List.mem_toFinset] at hz
        rw [Finset.mem_range]
        exact hsub z hz
    _ = width * height := Finset.card_range _

/-- Characterization of one full direction loop: it appends to the queue
and the visited list exactly the passing unvisited destinations, in
direction order, and after it every passing destination is visited. -/
theorem expand_spec (hgh : grid.length = height)
    (hgw : ∀ row ∈ grid, row.length = width) (pos : Point)
    (path : List Point) (c : GridCell) :
    ∀ (ds : List Dir) (queue : List (Point × List Point))
      (visited : List Point),
      ∃ news : List Point,
        expand grid width height strictMode target pos path c ds queue
            visited =
          some (queue ++ news.map fun np => (np, path ++ [np]),
            visited ++ news) ∧
        news.Nodup ∧
        (∀ np ∈ news, np ∉ visited ∧ InB width height np ∧
          ∃ d ∈ ds, np = pmove pos d ∧
            moveOk grid width height strictMode target pos c d = some true) ∧
        (∀ d ∈ ds,
          moveOk grid width height strictMode target pos c d = some true →
          pmove pos d ∈ visited ++ news) := by
  intro ds
  induction ds with
  | nil =>
    intro queue visited
    refine ⟨[], ?_, List.nodup_nil, ?_, ?_⟩
    · simp [expand]
    · intro np hnp
      simp at hnp
    · intro d hd
      simp at hd
  | cons d ds ih =>
    intro queue visited
    cases hmo : moveOk grid width height strictMode target pos c d with
    | none =>
      exact absurd hmo
        (moveOk_ne_none grid width height strictMode target hgh hgw pos c d)
    | some b =>
      cases b with
      | false =>
        obtain ⟨news, hrun, hnd, hprops, hcover⟩ := ih queue visited
        refine ⟨news, ?_, hnd, ?_, ?_⟩
        · simp only [expand, hmo]
          exact hrun
        · intro np hnp
          obtain ⟨h1, h2, d', hd', h3⟩ := hprops np hnp
          exact ⟨h1, h2, d', List.mem_cons_of_mem d hd', h3⟩
        · intro d' hd' hmo'
          rcases List.mem_cons.mp hd' with rfl | hd'
          · rw [hmo] at hmo'
            simp at hmo'
          · exact hcover d' hd' hmo'
      | true =>
        by_cases hvis : pmove pos d ∈ visited
        · obtain ⟨news, hrun, hnd, hprops, hcover⟩ := ih queue visited
          refine ⟨news, ?_, hnd, ?_, ?_⟩
          · simp only [expand, hmo]
            rw [if_pos hvis]
            exact hrun
          · intro np hnp
            obtain ⟨h1, h2, d', hd', h3⟩ := hprops np hnp
            exact ⟨h1, h2, d', List.mem_cons_of_mem d hd', h3⟩
          · intro d' hd' hmo'
            rcases List.mem_cons.mp hd' with rfl | hd'
            · exact List.mem_append_left news hvis
            · exact hcover d' hd' hmo'
        · obtain ⟨news, hrun, hnd, hprops, hcover⟩ :=
            ih (queue ++ [(pmove pos d, path ++ [pmove pos d])])
              (visited ++ [pmove pos d])
          refine ⟨pmove pos d :: news, ?_, ?_, ?_, ?_⟩
          · simp only [expand, hmo]
            rw [if_neg hvis, hrun]
            simp only [List.map_cons, List.append_assoc,
              List.singleton_append, List.cons_append, List.nil_append]
          · refine List.nodup_cons.mpr ⟨?_, hnd⟩
            intro habs
            obtain ⟨h1, -, -⟩ := hprops _ habs
            exact h1
              (List.mem_append_right visited (List.mem_singleton_self _))
          · intro np hnp
            rcases List.mem_cons.mp hnp with rfl | hnp
            · exact ⟨hvis,
                moveOk_true_inB grid width height strictMode target pos c d
                  hmo,
                d, List.mem_cons_self d ds, rfl, hmo⟩
            · obtain ⟨h1, h2, d', hd', h3⟩ := hprops np hnp
              exact ⟨fun habs => h1 (List.mem_append_left _ habs), h2,
                d', List.mem_cons_of_mem d hd', h3⟩
          · intro d' hd' hmo'
            rcases List.mem_cons.mp hd' with rfl | hd'
            · exact List.mem_append_right visited (List.mem_cons_self _ _)
            · have hmem := hcover d' hd' hmo'
              rw [List.append_assoc] at hmem
              simpa using hmem

/-- With an empty queue every legal route's endpoint has been processed:
the search has exhausted the reachable region. -/
theorem route_closed (P V : List Point) (D : ℕ)
    (hinv : FInv grid width height strictMode target start P [] V D) :
    ∀ (n : ℕ) (r : List Point) (u : Point), r.length = n + 1 →
      RouteTo grid width height strictMode target start u r → u ∈ P := by
  intro n
  induction n with
  | zero =>
    intro r u hlen hr
    have hu := routeTo_one grid width height strictMode target start u r hr hlen
    rw [hu]
    rcases (hinv.vis start).mp hinv.sv with hP | ⟨pu, hpu⟩
    · exact hP
    · simp at hpu
  | succ n ih =>
    intro r u hlen hr
    obtain ⟨u', hr', hstep, hdlen⟩ :=
      routeTo_succ grid width height strictMode target start u r n hr
        (by omega)
    have hu' := ih r.dropLast u' hdlen hr'
    obtain ⟨cu, hcu, d, hd, hpm, hmo⟩ :=
      legalStepB_elim grid width height strictMode target u' u hstep
    have hv : pmove u' d ∈ V := hinv.cp u' hu' cu hcu d hd hmo
    rw [← hpm] at hv
    rcases (hinv.vis u).mp hv with hP | ⟨pu, hpu⟩
    · exact hP
    · simp at hpu

/-- The search loop of the route finder, under its invariant and with
enough fuel, returns the empty route exactly when no legal route reaches
the target and otherwise a legal route of minimum length. -/
theorem findPathAux_correct (hgh : grid.length = height)
    (hgw : ∀ row ∈ grid, row.length = width) :
    ∀ (fuel : ℕ) (P : List Point) (Q : List (Point × List Point))
      (V : List Point) (D : ℕ),
      FInv grid width height strictMode target start P Q V D →
      Q.length + (width * height - V.length) < fuel →
      ∃ r, findPathAux grid width height target strictMode fuel Q V =
          some r ∧
        ((r = [] ∧ ¬ ∃ r', RouteTo grid width height strictMode target
            start target r') ∨
          (RouteTo grid width height strictMode target start target r ∧
            ∀ r', RouteTo grid width height strictMode target start target
              r' → r.length ≤ r'.length)) := by
  intro fuel
  induction fuel with
  | zero =>
    intro P Q V D hinv hfuel
    exact absurd hfuel (by omega)
  | succ f ih =>
    intro P Q V D hinv hfuel
    cases Q with
    | nil =>
      refine ⟨[], rfl, Or.inl ⟨rfl, ?_⟩⟩
      rintro ⟨r', hr'⟩
      have hne := hr'.1
      have hlen : r'.length = (r'.length - 1) + 1 := by
        cases r' with
        | nil => exact absurd rfl hne
        | cons a l => simp
      exact hinv.htgt
        (route_closed grid width height strictMode target start P V D hinv
          (r'.length - 1) r' target hlen hr')
    | cons e rest =>
      obtain ⟨pos, path⟩ := e
      obtain ⟨q1, q2, hsplit, hq1, hq2, hq1e⟩ := hinv.shape
      cases q1 with
      | nil =>
        rw [hq1e rfl] at hsplit
        simp at hsplit
      | cons e1 q1t =>
        rw [List.cons_append] at hsplit
        injection hsplit with h1 h2
        subst h1
        have hD : path.length = D := hq1 (pos, path) (List.mem_cons_self _ _)
        have hroutepos : RouteTo grid width height strictMode target start
            pos path := hinv.qroutes (pos, path) (List.mem_cons_self _ _)
        simp only [findPathAux]
        by_cases hpt : pos = target
        · rw [if_pos hpt]
          refine ⟨path, rfl, Or.inr ⟨hpt ▸ hroutepos, ?_⟩⟩
          intro r' hr'
          by_contra hlt
          push_neg at hlt
          exact hinv.htgt (hinv.g2 target r' hr' (by omega))
        · rw [if_neg hpt]
          have hposin : InB width height pos :=
            hinv.qin (pos, path) (List.mem_cons_self _ _)
          obtain ⟨c, hc⟩ := cellAt_of_inB grid width height hgh hgw pos hposin
          simp only [hc]
          obtain ⟨news, hrun, hnewnd, hprops, hcover⟩ :=
            expand_spec grid width height strictMode target hgh hgw pos path
              c directions rest V
          simp only [hrun]
          have hnewstep : ∀ np ∈ news,
              legalStepB grid width height strictMode target pos np = true := by
            intro np hnp
            obtain ⟨-, -, d, hd, hpm, hmo⟩ := hprops np hnp
            exact legalStepB_intro grid width height strictMode target pos np
              c hc d hd hpm hmo
          have hQ'routes : ∀ e ∈ rest ++ news.map fun np =>
              (np, path ++ [np]),
              RouteTo grid width height strictMode target start e.1 e.2 := by
            intro e he
            rcases List.mem_append.mp he with he | he
            · exact hinv.qroutes e (List.mem_cons_of_mem _ he)
            · obtain ⟨np, hnp, rfl⟩ := List.mem_map.mp he
              exact routeTo_snoc grid width height strictMode target start
                pos np path hroutepos (hnewstep np hnp)
          have hQ'in : ∀ e ∈ rest ++ news.map fun np => (np, path ++ [np]),
              InB width height e.1 := by
            intro e he
            rcases List.mem_append.mp he with he | he
            · exact hinv.qin e (List.mem_cons_of_mem _ he)
            · obtain ⟨np, hnp, rfl⟩ := List.mem_map.mp he
              exact (hprops np hnp).2.1
          have hvis' : ∀ u, u ∈ V ++ news ↔ (u ∈ pos :: P ∨
              ∃ pu, (u, pu) ∈ rest ++ news.map fun np =>
                (np, path ++ [np])) := by
            intro u
            constructor
            · intro hu
              rcases List.mem_append.mp hu with hu | hu
              · rcases (hinv.vis u).mp hu with hP | ⟨pu, hpu⟩
                · exact Or.inl (List.mem_cons_of_mem _ hP)
                · rcases List.mem_cons.mp hpu with heq | hpu
                  · have h1 : u = pos := congrArg Prod.fst heq
                    exact Or.inl (h1 ▸ List.mem_cons_self _ _)
                  · exact Or.inr ⟨pu, List.mem_append_left _ hpu⟩
              · exact Or.inr ⟨path ++ [u],
                  List.mem_append_right _ (List.mem_map.mpr ⟨u, hu, rfl⟩)⟩
            · intro hu
              rcases hu with hu | ⟨pu, hpu⟩
              · rcases List.mem_cons.mp hu with rfl | hP
                · exact List.mem_append_left _ ((hinv.vis u).mpr
                    (Or.inr ⟨path, List.mem_cons_self _ _⟩))
                · exact List.mem_append_left _ ((hinv.vis u).mpr (Or.inl hP))
              · rcases List.mem_append.mp hpu with hpu | hpu
                · exact List.mem_append_left _ ((hinv.vis u).mpr
                    (Or.inr ⟨pu, List.mem_cons_of_mem _ hpu⟩))
                · obtain ⟨np, hnp, heq⟩ := List.mem_map.mp hpu
                  have h1 : np = u := congrArg Prod.fst heq
                  exact List.mem_append_right _ (h1 ▸ hnp)
          have hvnodup' : (V ++ news).Nodup := by
            refine List.Nodup.append hinv.vnodup hnewnd ?_
            intro a haV haN
            exact (hprops a haN).1 haV
          have hvin' : ∀ u ∈ V ++ news, InB width height u := by
            intro u hu
            rcases List.mem_append.mp hu with hu | hu
            · exact hinv.vin u hu
            · exact (hprops u hu).2.1
          have hsv' : start ∈ V ++ news := List.mem_append_left _ hinv.sv
          have hcp' : ∀ u ∈ pos :: P, ∀ cu, cellAt grid u = some cu →
              ∀ d ∈ directions, moveOk grid width height strictMode target
                u cu d = some true → pmove u d ∈ V ++ news := by
            intro u hu cu hcu d hd hmo
            rcases List.mem_cons.mp hu with rfl | hP
            · have hcc : cu = c := by
                rw [hcu] at hc
                exact Option.some.inj hc
              subst hcc
              exact hcover d hd hmo
            · exact List.mem_append_left _ (hinv.cp u hP cu hcu d hd hmo)
          have hhtgt' : target ∉ pos :: P := by
            intro habs
            rcases List.mem_cons.mp habs with heq | hP
            · exact hpt heq.symm
            · exact hinv.htgt hP
          have hvs' : ∀ e ∈ rest ++ news.map fun np => (np, path ++ [np]),
              ∀ r, RouteTo grid width height strictMode target start e.1 r →
                e.2.length ≤ r.length := by
            intro e he r hr
            rcases List.mem_append.mp he with he | he
            · exact hinv.vs e (List.mem_cons_of_mem _ he) r hr
            · obtain ⟨np, hnp, rfl⟩ := List.mem_map.mp he
              simp only [List.length_append, List.length_singleton]
              by_contra hlt
              push_neg at hlt
              have hle : r.length ≤ D := by omega
              exact (hprops np hnp).1 (hinv.cg np r hr hle)
          have hVle' : (V ++ news).length ≤ width * height :=
            nodup_inB_length_le width height (V ++ news) hvnodup' hvin'
          have hfuel' : (rest ++ news.map fun np =>
              (np, path ++ [np])).length +
              (width * height - (V ++ news).length) < f := by
            obtain ⟨A, hA⟩ : ∃ A, width * height = A := ⟨_, rfl⟩
            rw [hA] at hfuel hVle' ⊢
            simp only [List.length_append, List.length_map,
              List.length_cons] at hfuel hVle' ⊢
            omega
          cases q1t with
          | nil =>
            have hrest : rest = q2 := by
              rw [h2]
              rfl
            have hg2' : ∀ u r, RouteTo grid width height strictMode target
                start u r → r.length < D + 1 → u ∈ pos :: P := by
              intro u r hr hlt
              have hu := hinv.cg u r hr (by omega)
              rcases (hinv.vis u).mp hu with hP | ⟨pu, hpu⟩
              · exact List.mem_cons_of_mem _ hP
              · rcases List.mem_cons.mp hpu with heq | hpu
                · have h1 : u = pos := congrArg Prod.fst heq
                  exact h1 ▸ List.mem_cons_self _ _
                · have hlen2 : pu.length = D + 1 :=
                    hq2 (u, pu) (hrest ▸ hpu)
                  have hvs2 : pu.length ≤ r.length :=
                    hinv.vs (u, pu) (List.mem_cons_of_mem _ hpu) r hr
                  omega
            have hcg' : ∀ u r, RouteTo grid width height strictMode target
                start u r → r.length ≤ D + 1 → u ∈ V ++ news := by
              intro u r hr hle
              rcases Nat.lt_or_ge r.length (D + 1) with hlt | hge
              · exact List.mem_append_left _ (hinv.cg u r hr (by omega))
              · have hlen2 : r.length = (D - 1) + 2 := by
                  have := hinv.dpos
                  omega
                obtain ⟨u', hr', hstep, hdl⟩ :=
                  routeTo_succ grid width height strictMode target start u r
                    (D - 1) hr hlen2
                have hu' := hg2' u' r.dropLast hr' (by
                  have := hinv.dpos
                  omega)
                obtain ⟨cu, hcu, d, hd, hpm, hmo⟩ :=
                  legalStepB_elim grid width height strictMode target u' u
                    hstep
                rcases List.mem_cons.mp hu' with rfl | hP
                · have hcc : cu = c := by
                    rw [hcu] at hc
                    exact Option.some.inj hc
                  subst hcc
                  rw [hpm]
                  exact hcover d hd hmo
                · rw [hpm]
                  exact List.mem_append_left _
                    (hinv.cp u' hP cu hcu d hd hmo)
            have hq2len : ∀ e ∈ q2 ++ news.map fun np =>
                (np, path ++ [np]), e.2.length = D + 1 := by
              intro e he
              rcases List.mem_append.mp he with he | he
              · exact hq2 e he
              · obtain ⟨np, hnp, rfl⟩ := List.mem_map.mp he
                simp [hD]
            obtain ⟨r, hrun2, hres⟩ := ih (pos :: P)
              (rest ++ news.map fun np => (np, path ++ [np])) (V ++ news)
              (D + 1)
              ⟨by omega, hQ'routes, hQ'in,
               ⟨q2 ++ news.map fun np => (np, path ++ [np]), [],
                by rw [hrest, List.append_nil],
                hq2len, fun e he => absurd he (List.not_mem_nil e),
                fun _ => rfl⟩,
               hvis', hvnodup', hvin', hsv', hcp', hg2', hcg', hvs',
               hhtgt'⟩ hfuel'
            exact ⟨r, hrun2, hres⟩
          | cons e2 q1tt =>
            have hg2' : ∀ u r, RouteTo grid width height strictMode target
                start u r → r.length < D → u ∈ pos :: P :=
              fun u r hr hlt => List.mem_cons_of_mem _ (hinv.g2 u r hr hlt)
            have hcg' : ∀ u r, RouteTo grid width height strictMode target
                start u r → r.length ≤ D → u ∈ V ++ news :=
              fun u r hr hle => List.mem_append_left _ (hinv.cg u r hr hle)
            have hq2len : ∀ e ∈ q2 ++ news.map fun np =>
                (np, path ++ [np]), e.2.length = D + 1 := by
              intro e he
              rcases List.mem_append.mp he with he | he
              · exact hq2 e he
              · obtain ⟨np, hnp, rfl⟩ := List.mem_map.mp he
                simp [hD]
            obtain ⟨r, hrun2, hres⟩ := ih (pos :: P)
              (rest ++ news.map fun np => (np, path ++ [np])) (V ++ news) D
              ⟨hinv.dpos, hQ'routes, hQ'in,
               ⟨e2 :: q1tt, q2 ++ news.map fun np => (np, path ++ [np]),
                by rw [h2, List.append_assoc],
                fun e he => hq1 e (List.mem_cons_of_mem _ he),
                hq2len, fun h => absurd h (List.cons_ne_nil e2 q1tt)⟩,
               hvis', hvnodup', hvin', hsv', hcp', hg2', hcg', hvs',
               hhtgt'⟩ hfuel'
            exact ⟨r, hrun2, hres⟩

/-- What a passing `moveOkBounded` verdict says about the destination
cell: the one-way collision check did not fire and the walkability check
passed. -/
theorem moveOkBounded_true_elim (pos : Point) (c : GridCell) (d : Dir)
    (h : moveOkBounded grid width height strictMode target pos c d =
      some true) :
    ∀ nc, cellAt grid (pmove pos d) = some nc →
      ¬(strictMode = true ∧ nc.type = CellType.path ∧ nc.hasFlow = true ∧
        (nc.rotation - d.deg).natAbs = 180) ∧
      walkableB nc strictMode target (pos.x + d.dx) (pos.y + d.dy) =
        true := by
  intro nc hnc
  unfold moveOkBounded at h
  by_cases hb : 0 ≤ pos.x + d.dx ∧ pos.x + d.dx < (width : Int) ∧
      0 ≤ pos.y + d.dy ∧ pos.y + d.dy < (height : Int)
  · rw [if_pos hb] at h
    have hnc' : cellAt grid ⟨pos.x + d.dx, pos.y + d.dy⟩ = some nc := hnc
    simp only [hnc'] at h
    by_cases h1 : strictMode = true ∧ nc.type = CellType.path ∧
        nc.hasFlow = true ∧ (nc.rotation - d.deg).natAbs = 180
    · rw [if_pos h1] at h
      simp at h
    · rw [if_neg h1] at h
      by_cases h2 : edgeSolid c.edges d.edge = true
      · rw [if_pos h2] at h
        simp at h
      · rw [if_neg h2] at h
        by_cases h3 : edgeSolid nc.edges d.oppEdge = true
        · rw [if_pos h3] at h
          simp at h
        · rw [if_neg h3] at h
          by_cases h4 : subMaskBlocked nc = true
          · rw [if_pos h4] at h
            simp at h
          · rw [if_neg h4] at h
            exact ⟨h1, Option.some.inj h⟩
  · rw [if_neg hb] at h
    simp at h

/-- Within the `directions` array the offset determines the flow angle. -/
theorem dir_deg_of_offset (d d' : Dir) (hd : d ∈ directions)
    (hd' : d' ∈ directions) (hx : d.dx = d'.dx) (hy : d.dy = d'.dy) :
    d.deg = d'.deg := by
  simp only [directions, List.mem_cons, List.not_mem_nil, or_false] at hd hd'
  rcases hd with rfl | rfl | rfl | rfl <;>
    rcases hd' with rfl | rfl | rfl | rfl <;> simp_all

/-- Under strict flow a legal step enters no flowless Path cell and no
flowed Path cell against its one-way direction. -/
theorem legalStep_strict_entry (u v : Point)
    (h : legalStepB grid width height true target u v = true) :
    ∀ cv, cellAt grid v = some cv →
      (cv.type = CellType.path → cv.hasFlow = true) ∧
      (∀ d ∈ directions, v = pmove u d →
        ¬(cv.type = CellType.path ∧ cv.hasFlow = true ∧
          (cv.rotation - d.deg).natAbs = 180)) := by
  intro cv hcv
  obtain ⟨cu, hcu, d0, hd0, hpm, hmo⟩ :=
    legalStepB_elim grid width height true target u v h
  have hbd := moveOk_true_bounded grid width height true target u cu d0 hmo
  have helim := moveOkBounded_true_elim grid width height true target u cu
    d0 hbd cv (by rw [← hpm]; exact hcv)
  constructor
  · intro hpath
    have hw := helim.2
    unfold walkableB at hw
    rw [if_pos hpath, if_pos rfl] at hw
    exact hw
  · intro d hd hpm' habs
    have hoff : u.x + d0.dx = u.x + d.dx ∧ u.y + d0.dy = u.y + d.dy := by
      rw [hpm] at hpm'
      unfold pmove at hpm'
      have h1 := congrArg Point.x hpm'
      have h2 := congrArg Point.y hpm'
      exact ⟨h1, h2⟩
    have hdeg : d.deg = d0.deg :=
      dir_deg_of_offset d d0 hd hd0 (by omega) (by omega)
    exact helim.1 ⟨rfl, habs.1, habs.2.1, by rw [← hdeg]; exact habs.2.2⟩

end RouteFinder

/-- Full behaviour of `findPath` on a non-empty rectangular grid with an
in-bounds start cell: the search succeeds, returns the empty sequence
exactly when no legal route exists, and otherwise a legal route of
minimum length. -/
theorem findPath_spec (grid : Grid) (width height : Nat)
    (strictMode : Bool) (start target : Point)
    (hne : grid ≠ []) (hgh : grid.length = height)
    (hgw : ∀ row ∈ grid, row.length = width)
    (hs : InB width height start) :
    ∃ r, findPath grid start target strictMode = some r ∧
      (r = [] ↔ ¬ ∃ r', RouteTo grid width height strictMode target start
        target r') ∧
      (r ≠ [] → RouteTo grid width height strictMode target start target r ∧
        ∀ r', RouteTo grid width height strictMode target start target r' →
          r.length ≤ r'.length) := by
  cases grid with
  | nil => exact absurd rfl hne
  | cons row0 grest =>
    have hw0 : row0.length = width := hgw row0 (List.mem_cons_self _ _)
    have hw1 : 1 ≤ width := by
      obtain ⟨h1, h2, -, -⟩ := hs
      omega
    have hh1 : 1 ≤ height := by
      obtain ⟨-, -, h1, h2⟩ := hs
      omega
    have hinv0 : FInv (row0 :: grest) width height strictMode target start
        [] [(start, [start])] [start] 1 := by
      refine ⟨le_refl 1, ?_, ?_, ?_, ?_, List.nodup_singleton start, ?_,
        List.mem_singleton_self start, ?_, ?_, ?_, ?_, ?_⟩
      · intro e he
        rcases List.mem_singleton.mp he with rfl
        exact routeTo_singleton (row0 :: grest) width height strictMode
          target start
      · intro e he
        rcases List.mem_singleton.mp he with rfl
        exact hs
      · refine ⟨[(start, [start])], [], by simp, ?_,
          fun e he => absurd he (List.not_mem_nil e), fun _ => rfl⟩
        intro e he
        rcases List.mem_singleton.mp he with rfl
        rfl
      · intro u
        constructor
        · intro hu
          have h1 := List.mem_singleton.mp hu
          exact Or.inr ⟨[start], by
            rw [h1]
            exact List.mem_singleton_self _⟩
        · intro hu
          rcases hu with hP | ⟨pu, hpu⟩
          · exact absurd hP (List.not_mem_nil u)
          · have h1 : u = start :=
              congrArg Prod.fst (List.mem_singleton.mp hpu)
            rw [h1]
            exact List.mem_singleton_self _
      · intro u hu
        rcases List.mem_singleton.mp hu with rfl
        exact hs
      · intro u hu
        exact absurd hu (List.not_mem_nil u)
      · intro u r hr hlt
        cases r with
        | nil => exact absurd rfl hr.1
        | cons a l => simp at hlt
      · intro u r hr hle
        have hge : 1 ≤ r.length := by
          cases r with
          | nil => exact absurd rfl hr.1
          | cons a l => simp
        have heq := routeTo_one (row0 :: grest) width height strictMode
          target start u r hr (by omega)
        rw [heq]
        exact List.mem_singleton_self _
      · intro e he r hr
        rcases List.mem_singleton.mp he with rfl
        have hge : 1 ≤ r.length := by
          cases r with
          | nil => exact absurd rfl hr.1
          | cons a l => simp
        simpa using hge
      · exact List.not_mem_nil target
    have hfuel0 : (1 : ℕ) + (width * height - 1) < width * height + 1 := by
      have hpos : 0 < width * height := Nat.mul_pos (by omega) (by omega)
      obtain ⟨A, hA⟩ : ∃ A, width * height = A := ⟨_, rfl⟩
      rw [hA] at hpos ⊢
      omega
    obtain ⟨r, hrun, hres⟩ := findPathAux_correct (row0 :: grest) width
      height strictMode target start hgh hgw (width * height + 1) []
      [(start, [start])] [start] 1 hinv0 (by simpa using hfuel0)
    refine ⟨r, ?_, ?_, ?_⟩
    · simp only [findPath]
      rw [hw0, hgh]
      exact hrun
    · constructor
      · intro hre
        rcases hres with ⟨-, hno⟩ | ⟨hroute, -⟩
        · exact hno
        · exact absurd hre hroute.1
      · intro hno
        rcases hres with ⟨hre, -⟩ | ⟨hroute, -⟩
        · exact hre
        · exact absurd ⟨r, hroute⟩ hno
    · intro hrne
      rcases hres with ⟨hre, -⟩ | h
      · exact absurd hre hrne
      · exact h

/-- C1: on a non-empty rectangular grid with an in-bounds start cell,
`findPath` succeeds and returns the empty sequence exactly when no legal
route from start to target exists; a non-empty result is a legal route —
it starts at the start cell, ends at the target cell, every consecutive
pair is an orthogonally adjacent legal move — of minimum length among
all legal routes. -/
theorem claim_C1_route_finder (grid : Grid) (width height : Nat)
    (strictMode : Bool) (start target : Point)
    (hne : grid ≠ []) (hgh : grid.length = height)
    (hgw : ∀ row ∈ grid, row.length = width)
    (hs : InB width height start) :
    ∃ r, findPath grid start target strictMode = some r ∧
      (r = [] ↔ ¬ ∃ r', RouteTo grid width height strictMode target start
        target r') ∧
      (r ≠ [] → RouteTo grid width height strictMode target start target r ∧
        ∀ r', RouteTo grid width height strictMode target start target r' →
          r.length ≤ r'.length) :=
  findPath_spec grid width height strictMode start target hne hgh hgw hs

/-- Witness for C1 on the one-row fixture grid: from the Entry cell to
the Parking cell with `strictFlow = false`. -/
theorem claim_C1_witness :
    (gridA ≠ [] ∧ gridA.length = 1 ∧ (∀ row ∈ gridA, row.length = 4) ∧
      InB 4 1 (⟨0, 0⟩ : Point)) ∧
    (∃ r, findPath gridA ⟨0, 0⟩ ⟨2, 0⟩ false = some r ∧
      (r = [] ↔ ¬ ∃ r', RouteTo gridA 4 1 false ⟨2, 0⟩ ⟨0, 0⟩
        ⟨2, 0⟩ r') ∧
      (r ≠ [] → RouteTo gridA 4 1 false ⟨2, 0⟩ ⟨0, 0⟩ ⟨2, 0⟩ r ∧
        ∀ r', RouteTo gridA 4 1 false ⟨2, 0⟩ ⟨0, 0⟩ ⟨2, 0⟩ r' →
          r.length ≤ r'.length)) :=
  ⟨⟨by decide, rfl, by decide, by decide⟩,
    claim_C1_route_finder gridA 4 1 false ⟨0, 0⟩ ⟨2, 0⟩ (by decide) rfl
      (by decide) (by decide)⟩

/-- C5: with `strictFlow = true`, along every returned route each entered
cell (every cell but the starting one) that is a Path cell has an active
flow rotation, and no step enters a Path cell whose active flow rotation
is opposite (180°) to the direction of travel.  The starting cell is
exempt: only the entered side of each step is constrained. -/
theorem claim_C5_strict_traversal (grid : Grid) (width height : Nat)
    (start target : Point) (r : List Point)
    (hne : grid ≠ []) (hgh : grid.length = height)
    (hgw : ∀ row ∈ grid, row.length = width) (hs : InB width height start)
    (hrun : findPath grid start target true = some r) :
    List.Chain' (fun u v => ∀ cv, cellAt grid v = some cv →
      (cv.type = CellType.path → cv.hasFlow = true) ∧
      (∀ d ∈ directions, v = pmove u d →
        ¬(cv.type = CellType.path ∧ cv.hasFlow = true ∧
          (cv.rotation - d.deg).natAbs = 180))) r := by
  by_cases hrne : r = []
  · subst hrne
    exact List.chain'_nil
  · obtain ⟨r', hrun', hiff, himp⟩ := findPath_spec grid width height true
      start target hne hgh hgw hs
    rw [hrun] at hrun'
    have hrr := Option.some.inj hrun'
    subst hrr
    obtain ⟨hroute, -⟩ := himp hrne
    exact List.Chain'.imp
      (fun u v hstep =>
        legalStep_strict_entry grid width height target u v hstep)
      hroute.2.2.2

/-- Witness for C5: the eastbound strict route of `gridC`. -/
theorem claim_C5_witness :
    ((gridC ≠ [] ∧ gridC.length = 1 ∧ (∀ row ∈ gridC, row.length = 3) ∧
      InB 3 1 (⟨0, 0⟩ : Point)) ∧
      findPath gridC ⟨0, 0⟩ ⟨2, 0⟩ true =
        some [⟨0, 0⟩, ⟨1, 0⟩, ⟨2, 0⟩]) ∧
    List.Chain' (fun u v => ∀ cv, cellAt gridC v = some cv →
      (cv.type = CellType.path → cv.hasFlow = true) ∧
      (∀ d ∈ directions, v = pmove u d →
        ¬(cv.type = CellType.path ∧ cv.hasFlow = true ∧
          (cv.rotation - d.deg).natAbs = 180)))
      [⟨0, 0⟩, ⟨1, 0⟩, ⟨2, 0⟩] :=
  ⟨⟨⟨by decide, rfl, by decide, by decide⟩, by decide⟩,
    claim_C5_strict_traversal gridC 3 1 ⟨0, 0⟩ ⟨2, 0⟩
      [⟨0, 0⟩, ⟨1, 0⟩, ⟨2, 0⟩] (by decide) rfl (by decide) (by decide)
      (by decide)⟩

/-- C6 counterexample: with `strictFlow = false` the route finder enters
the flowed Path cell of `gridB` against its one-way direction — the
travel direction is east (90°), the cell's active flow is west (270°), an
exact 180° mismatch — refuting the claim that the one-way rejection
applies to both `strictFlow` values. -/
theorem claim_C6_counterexample :
    findPath gridB ⟨0, 0⟩ ⟨1, 0⟩ false = some [⟨0, 0⟩, ⟨1, 0⟩] ∧
    ∃ d ∈ directions, (⟨1, 0⟩ : Point) = pmove ⟨0, 0⟩ d ∧
      ∃ cv, cellAt gridB ⟨1, 0⟩ = some cv ∧ cv.type = CellType.path ∧
        cv.hasFlow = true ∧ (cv.rotation - d.deg).natAbs = 180 :=
  ⟨by decide,
    ⟨1, 0, 90, GridEdges.east, GridEdges.west⟩,
    List.mem_cons_of_mem _ (List.mem_cons_self _ _),
    by decide,
    flowCell 270, by decide, by decide, by decide, by decide⟩

/-- C6 (amended): the 180° one-way rejection is enforced only under
`strictFlow = true`; in that mode no step of a returned route enters a
flowed Path cell against its direction of travel. -/
theorem claim_C6_one_way_strict (grid : Grid) (width height : Nat)
    (start target : Point) (r : List Point)
    (hne : grid ≠ []) (hgh : grid.length = height)
    (hgw : ∀ row ∈ grid, row.length = width) (hs : InB width height start)
    (hrun : findPath grid start target true = some r) :
    List.Chain' (fun u v => ∀ cv, cellAt grid v = some cv →
      ∀ d ∈ directions, v = pmove u d →
        ¬(cv.type = CellType.path ∧ cv.hasFlow = true ∧
          (cv.rotation - d.deg).natAbs = 180)) r := by
  by_cases hrne : r = []
  · subst hrne
    exact List.chain'_nil
  · obtain ⟨r', hrun', hiff, himp⟩ := findPath_spec grid width height true
      start target hne hgh hgw hs
    rw [hrun] at hrun'
    have hrr := Option.some.inj hrun'
    subst hrr
    obtain ⟨hroute, -⟩ := himp hrne
    exact List.Chain'.imp
      (fun u v hstep cv hcv =>
        (legalStep_strict_entry grid width height target u v hstep cv
          hcv).2)
      hroute.2.2.2

/-- Witness for the amended C6 on the eastbound strict route of
`gridC`. -/
theorem claim_C6_witness :
    ((gridC ≠ [] ∧ gridC.length = 1 ∧ (∀ row ∈ gridC, row.length = 3) ∧
      InB 3 1 (⟨0, 0⟩ : Point)) ∧
      findPath gridC ⟨0, 0⟩ ⟨2, 0⟩ true =
        some [⟨0, 0⟩, ⟨1, 0⟩, ⟨2, 0⟩]) ∧
    List.Chain' (fun u v => ∀ cv, cellAt gridC v = some cv →
      ∀ d ∈ directions, v = pmove u d →
        ¬(cv.type = CellType.path ∧ cv.hasFlow = true ∧
          (cv.rotation - d.deg).natAbs = 180))
      [⟨0, 0⟩, ⟨1, 0⟩, ⟨2, 0⟩] :=
  ⟨⟨⟨by decide, rfl, by decide, by decide⟩, by decide⟩,
    claim_C6_one_way_strict gridC 3 1 ⟨0, 0⟩ ⟨2, 0⟩
      [⟨0, 0⟩, ⟨1, 0⟩, ⟨2, 0⟩] (by decide) rfl (by decide) (by decide)
      (by decide)⟩

end PMS
